import Mathlib

/-!
Shallow embedding of the detection-and-removal core of `log-strip`
(`src/index.ts`): `buildPatterns`, `findMatches`, `removeStatements`,
together with proofs of the specification's claims about them.

Strings are modelled as `List Char` (JS strings are char sequences).
Each JS regular expression used by the source is embedded as an explicit
matcher function with the exact greedy/ordered-alternation semantics the
regex has on the source's patterns (all of which are deterministic in the
relevant places, as argued at each definition).
-/

namespace LogStrip

/-- Characters the JS `\s` class (and `String.trim`) treats as whitespace,
restricted to the ones relevant here. -/
def jsSpace (c : Char) : Bool :=
  c = ' ' || c = '\t' || c = '\n' || c = '\r' || c = '\x0B' || c = '\x0C' || c = '\xA0'

/-- The JS `\w` class: ASCII letters, digits, underscore. -/
def isWordChar (c : Char) : Bool :=
  c.isAlphanum || c = '_'

/-- Convert a Lean string literal to the `List Char` model. -/
def strL (s : String) : List Char := s.data

/-- Consume an exact literal from the front; returns the remainder on success. -/
def stripPre : List Char → List Char → Option (List Char)
  | [], t => some t
  | _ :: _, [] => none
  | p :: ps, c :: cs => if c = p then stripPre ps cs else none

/-- JS `String.prototype.startsWith`. -/
def startsWithL (p t : List Char) : Bool := (stripPre p t).isSome

/-- JS `String.prototype.includes` (substring test). -/
def containsSub (p : List Char) : List Char → Bool
  | [] => startsWithL p []
  | c :: cs => startsWithL p (c :: cs) || containsSub p cs

/-- Drop trailing whitespace. -/
def dropTrail (l : List Char) : List Char := (l.reverse.dropWhile jsSpace).reverse

/-- JS `String.prototype.trim`. -/
def trimL (l : List Char) : List Char := dropTrail (l.dropWhile jsSpace)

/-- JS `content.split("\n")`. -/
def splitLines : List Char → List (List Char)
  | [] => [[]]
  | c :: cs =>
    let r := splitLines cs
    if c = '\n' then [] :: r
    else
      match r with
      | [] => [[c]]
      | l :: ls => (c :: l) :: ls

/-- JS `lines.join("\n")`. -/
def joinLines : List (List Char) → List Char
  | [] => []
  | [l] => l
  | l :: l2 :: ls => l ++ '\n' :: joinLines (l2 :: ls)

/-! ## Pattern set (`buildPatterns`, lines 199-224 of the source)

The three compiled regexes are represented by a closed inductive type; the
console matcher carries its alternation list (the console vocabulary minus
the kept methods, in vocabulary order, exactly as `methods.join("|")`
builds the alternation). -/

inductive Pat where
  | consoleP (methods : List (List Char))
  | debuggerP
  | alertP
deriving DecidableEq

/-- The fixed console vocabulary, in source order. -/
def CONSOLE_METHODS : List (List Char) :=
  [strL "log", strL "debug", strL "info", strL "warn", strL "error",
   strL "trace", strL "table", strL "dir", strL "time", strL "timeEnd",
   strL "timeLog", strL "count", strL "countReset", strL "group",
   strL "groupEnd", strL "groupCollapsed", strL "clear", strL "assert",
   strL "profile", strL "profileEnd"]

/-- `buildPatterns`: console matcher (only when some methods survive the
keep filter), then the `debugger` matcher, then the `alert` matcher. -/
def buildPatternsL (keep : List (List Char)) : List Pat :=
  let methods := CONSOLE_METHODS.filter (fun m => !(keep.contains m))
  (if methods.isEmpty then [] else [Pat.consoleP methods]) ++ [Pat.debuggerP, Pat.alertP]

/-! ## The matchers

Each matcher takes the suffix of the line starting at a candidate match
position and returns the matched text (`match[0]` in JS) on success.
The leading `\b` of each regex (all three start with a word character,
so `\b` holds iff the preceding character is absent or a non-word
character) is checked by the scanner, which tracks the previous character.
-/

/-- One alternative of `(?:m1|m2|...)\s*\(`: the method name, optional
whitespace, and the opening parenthesis.  Returns (matched text, rest). -/
def matchMethod (m : List Char) (t : List Char) : Option (List Char × List Char) :=
  match stripPre m t with
  | none => none
  | some r =>
    let sp := r.takeWhile jsSpace
    match r.dropWhile jsSpace with
    | '(' :: r2 => some (m ++ sp ++ ['('], r2)
    | _ => none

/-- Ordered alternation over the method list (JS alternation is
first-match, each branch tried with its full continuation). -/
def firstMethod (ms : List (List Char)) (t : List Char) : Option (List Char × List Char) :=
  match ms with
  | [] => none
  | m :: rest =>
    match matchMethod m t with
    | some res => some res
    | none => firstMethod rest t

/-- Matcher body of `\bconsole\s*\.\s*(?:...methods...)\s*\(` at a position:
`console`, optional whitespace, a dot, optional whitespace, then the
(ordered) method alternation.  The greedy `\s*` runs are deterministic
because each is followed by a required non-space character. -/
def consoleCore (ms : List (List Char)) (t : List Char) : Option (List Char) :=
  match stripPre (strL "console") t with
  | none => none
  | some r1 =>
    let sp1 := r1.takeWhile jsSpace
    match r1.dropWhile jsSpace with
    | '.' :: r2 =>
      let sp2 := r2.takeWhile jsSpace
      match firstMethod ms (r2.dropWhile jsSpace) with
      | some (mm, _) => some (strL "console" ++ sp1 ++ '.' :: (sp2 ++ mm))
      | none => none
    | _ => none

/-- Matcher body of `\bdebugger\b\s*;?`: the word, a trailing word
boundary, greedy whitespace, then an optional semicolon. -/
def debuggerCore (t : List Char) : Option (List Char) :=
  match stripPre (strL "debugger") t with
  | none => none
  | some [] => some (strL "debugger")
  | some (c :: cs) =>
    if isWordChar c then none
    else
      let sp := (c :: cs).takeWhile jsSpace
      match (c :: cs).dropWhile jsSpace with
      | ';' :: _ => some (strL "debugger" ++ sp ++ [';'])
      | _ => some (strL "debugger" ++ sp)

/-- Matcher body of `\balert\s*\(`. -/
def alertCore (t : List Char) : Option (List Char) :=
  match stripPre (strL "alert") t with
  | none => none
  | some r =>
    let sp := r.takeWhile jsSpace
    match r.dropWhile jsSpace with
    | '(' :: _ => some (strL "alert" ++ sp ++ ['('])
    | _ => none

/-- Dispatch a pattern to its matcher body. -/
def matchCore : Pat → List Char → Option (List Char)
  | Pat.consoleP ms, t => consoleCore ms t
  | Pat.debuggerP, t => debuggerCore t
  | Pat.alertP, t => alertCore t

/-- Leading word-boundary check: all three regexes begin with `\b` followed
by a word character, which holds iff the previous character is absent or
not a word character. -/
def boundaryOK : Option Char → Bool
  | none => true
  | some c => !isWordChar c

/-- The `while ((match = pattern.exec(line)) !== null)` loop of a global
regex: scan left to right, record each match as (0-based index, matched
text), resume after the matched text.  `prev` is the character before the
current position (for `\b`).  `skip` counts positions still covered by
the previous match (`lastIndex` advancement): while positive, characters
are passed over without a match attempt.  All matchers return nonempty
matched text, so `skip := m.length - 1` after emitting a match resumes
exactly at the match end, with `prev` then being the match's last
character. -/
def scanGo (p : Pat) : Nat → Option Char → List Char → Nat → List (Nat × List Char)
  | _, _, [], _ => []
  | skip + 1, _, c :: cs, pos => scanGo p skip (some c) cs (pos + 1)
  | 0, prev, c :: cs, pos =>
    if boundaryOK prev then
      match matchCore p (c :: cs) with
      | some m => (pos, m) :: scanGo p (m.length - 1) (some c) cs (pos + 1)
      | none => scanGo p 0 (some c) cs (pos + 1)
    else scanGo p 0 (some c) cs (pos + 1)

/-- All matches of one pattern on one line. -/
def scanLine (p : Pat) (line : List Char) : List (Nat × List Char) :=
  scanGo p 0 none line 0

/-- Existence of a match of `p` somewhere in `t`, `prev` being the
character before `t`.  `pattern.test(str)` (after `lastIndex = 0`) is
exactly `hasMatchB p none str`. -/
def hasMatchB (p : Pat) : Option Char → List Char → Bool
  | _, [] => false
  | prev, c :: cs =>
    (boundaryOK prev && (matchCore p (c :: cs)).isSome) || hasMatchB p (some c) cs

/-- JS `pattern.test(t)` with `lastIndex` reset. -/
def testPat (p : Pat) (t : List Char) : Bool := hasMatchB p none t

/-- `patterns.some((p) => { p.lastIndex = 0; return p.test(t); })`. -/
def anyTest (ps : List Pat) (t : List Char) : Bool := ps.any (fun p => testPat p t)

/-! ## Match classification (`findMatches`, lines 226-267) -/

/-- A reported match (the `Match` interface; `file` is set to `""` by
`findMatches` and filled in by the caller). -/
structure MatchR where
  file : List Char
  line : Nat
  column : Nat
  type : List Char
  content : List Char
deriving DecidableEq, Repr

/-- First match of `/console\s*\.\s*(\w+)/` at one position of the matched
text; returns the capture (the greedy `\w+`). -/
def extractAt (t : List Char) : Option (List Char) :=
  match stripPre (strL "console") t with
  | none => none
  | some r1 =>
    match r1.dropWhile jsSpace with
    | '.' :: r2 =>
      let w := (r2.dropWhile jsSpace).takeWhile isWordChar
      if w.isEmpty then none else some w
    | _ => none

/-- `matchStr.match(/console\s*\.\s*(\w+)/)?.[1]`: first matching position,
left to right. -/
def extractMethod : List Char → Option (List Char)
  | [] => none
  | c :: cs =>
    match extractAt (c :: cs) with
    | some w => some w
    | none => extractMethod cs

/-- The `type` computation of `findMatches` (lines 243-253): `"unknown"`
unless the matched text contains `"console."` / `"debugger"` / `"alert"`,
with the console method extracted from the matched text (default `log`). -/
def computeType (m : List Char) : List Char :=
  if containsSub (strL "console.") m then
    strL "console." ++ (extractMethod m).getD (strL "log")
  else if containsSub (strL "debugger") m then strL "debugger"
  else if containsSub (strL "alert") m then strL "alert"
  else strL "unknown"

/-- The comment gate (used identically at lines 234-237 and 280-283):
the trimmed line starts with `//`, `/*` or `*`. -/
def isCommentLine (l : List Char) : Bool :=
  let t := trimL l
  startsWithL (strL "//") t || startsWithL (strL "/*") t || startsWithL (strL "*") t

/-- Matches contributed by a single line (`lineIdx` is 0-based): nothing
for a commented line, otherwise every pattern's occurrences in pattern
order, each with 1-based line and column and the trimmed line text. -/
def lineMatches (ps : List Pat) (idx : Nat) (line : List Char) : List MatchR :=
  if isCommentLine line then []
  else
    ps.flatMap fun p =>
      (scanLine p line).map fun pm =>
        { file := [], line := idx + 1, column := pm.1 + 1,
          type := computeType pm.2, content := trimL line }

/-- The line loop of `findMatches`. -/
def scanAll (ps : List Pat) (i : Nat) : List (List Char) → List MatchR
  | [] => []
  | l :: ls => lineMatches ps i l ++ scanAll ps (i + 1) ls

/-- `findMatches(content, patterns)`. -/
def findMatchesL (content : List Char) (ps : List Pat) : List MatchR :=
  scanAll ps 0 (splitLines content)

/-! ## Removal (`removeStatements`, lines 271-345) -/

/-- Matched length of `/\bconsole\s*\.\s*\w+\s*\([^)]*\)\s*;?\s*/` at a
position (the first `cleaned` replacement, line 293).  `[^)]*` greedily
consumes up to the first `)` and fails without one. -/
def r1At (t : List Char) : Option Nat :=
  match stripPre (strL "console") t with
  | none => none
  | some r1 =>
    match r1.dropWhile jsSpace with
    | '.' :: r2 =>
      let w := (r2.dropWhile jsSpace).takeWhile isWordChar
      if w.isEmpty then none
      else
        match ((r2.dropWhile jsSpace).drop w.length).dropWhile jsSpace with
        | '(' :: r4 =>
          match r4.dropWhile (fun c => !(c = ')')) with
          | ')' :: r5 =>
            let r6 := r5.dropWhile jsSpace
            let r7 := match r6 with | ';' :: rr => rr | _ => r6
            some (t.length - (r7.dropWhile jsSpace).length)
          | _ => none
        | _ => none
    | _ => none

/-- Matched length of `/\bdebugger\b\s*;?\s*/` at a position
(the second replacement, line 294). -/
def r2At (t : List Char) : Option Nat :=
  match stripPre (strL "debugger") t with
  | none => none
  | some [] => some t.length
  | some (c :: cs) =>
    if isWordChar c then none
    else
      let r := (c :: cs).dropWhile jsSpace
      let r2 := match r with | ';' :: rr => rr | _ => r
      some (t.length - (r2.dropWhile jsSpace).length)

/-- Matched length of `/\balert\s*\([^)]*\)\s*;?\s*/` at a position
(the third replacement, line 295). -/
def r3At (t : List Char) : Option Nat :=
  match stripPre (strL "alert") t with
  | none => none
  | some r =>
    match r.dropWhile jsSpace with
    | '(' :: r4 =>
      match r4.dropWhile (fun c => !(c = ')')) with
      | ')' :: r5 =>
        let r6 := r5.dropWhile jsSpace
        let r7 := match r6 with | ';' :: rr => rr | _ => r6
        some (t.length - (r7.dropWhile jsSpace).length)
      | _ => none
    | _ => none

/-- JS `str.replace(regex, "")` with a global regex whose every match is
nonempty and begins with `\b` before a word character: scan left to right
tracking the previous character, drop matched segments (a match of length
`len` drops the current character and the `len - 1` following ones via
`skip`), keep the rest. -/
def replaceGo (f : List Char → Option Nat) : Nat → Option Char → List Char → List Char
  | _, _, [] => []
  | skip + 1, _, c :: cs => replaceGo f skip (some c) cs
  | 0, prev, c :: cs =>
    if boundaryOK prev then
      match f (c :: cs) with
      | some len => replaceGo f (len - 1) (some c) cs
      | none => c :: replaceGo f 0 (some c) cs
    else c :: replaceGo f 0 (some c) cs

/-- The `cleaned` computation (lines 292-296): the three replacements in
order, then trim.  Its argument is the already-trimmed line. -/
def cleanedL (t : List Char) : List Char :=
  trimL (replaceGo r3At 0 none (replaceGo r2At 0 none (replaceGo r1At 0 none t)))

/-- Number of occurrences of a character (`(line.match(/\(/g) || []).length`). -/
def countCh (c : Char) (l : List Char) : Nat := l.count c

/-- Opening minus closing parentheses of a line, as an integer (the
running `depth` in the source is a JS number and can go negative). -/
def deltaL (l : List Char) : Int := (countCh '(' l : Int) - (countCh ')' l : Int)

/-- The `while (depth > 0 && i + 1 < lines.length)` loop: consume lines,
accumulating the parenthesis balance, until it is no longer positive or
the input ends; returns the unconsumed suffix. -/
def consumeDepth (d : Int) : List (List Char) → List (List Char)
  | [] => []
  | x :: xs => if d ≤ 0 then x :: xs else consumeDepth (d + deltaL x) xs

/-- Drop a following line whose trimmed content is exactly `";"`
(lines 322-324). -/
def dropSemi : List (List Char) → List (List Char)
  | [] => []
  | x :: xs => if trimL x = [';'] then xs else x :: xs

theorem consumeDepth_length (d : Int) (ls : List (List Char)) :
    (consumeDepth d ls).length ≤ ls.length := by
  induction ls generalizing d with
  | nil => simp [consumeDepth]
  | cons x xs ih =>
    simp only [consumeDepth]
    split
    · simp
    · exact le_trans (ih _) (by simp)

theorem dropSemi_length (ls : List (List Char)) :
    (dropSemi ls).length ≤ ls.length := by
  cases ls with
  | nil => simp [dropSemi]
  | cons x xs => simp only [dropSemi]; split <;> simp

/-- The main removal loop (lines 275-333), as a single pass over the
lines with an explicit mode.  Mode `none` is normal scanning: a commented
line is kept verbatim; otherwise, if some pattern matches the trimmed
line, the line is dropped — entering mode `some (deltaL l)` when its
`cleaned` form is nonempty and its parenthesis balance is positive (the
multi-line case) — and unmatched lines are kept.  Mode `some d` is the
`while (depth > 0 && i + 1 < lines.length)` consumption: while `d` is
positive the line is consumed and the balance updated; once it is not,
a lone-semicolon line is dropped and scanning resumes. -/
def removeGo (ps : List Pat) : Option Int → List (List Char) → List (List Char)
  | _, [] => []
  | mode, l :: rest =>
    let step : List (List Char) :=
      if isCommentLine l then l :: removeGo ps none rest
      else if anyTest ps (trimL l) then
        if (cleanedL (trimL l)).isEmpty then removeGo ps none rest
        else if 0 < deltaL l then removeGo ps (some (deltaL l)) rest
        else removeGo ps none rest
      else l :: removeGo ps none rest
    match mode with
    | some d =>
      if 0 < d then removeGo ps (some (d + deltaL l)) rest
      else if trimL l = [';'] then removeGo ps none rest
      else step
    | none => step

/-- The removal loop, entered in scanning mode. -/
def removeLoop (ps : List Pat) (ls : List (List Char)) : List (List Char) :=
  removeGo ps none ls

theorem removeGo_none_cons (ps : List Pat) (l : List Char) (rest : List (List Char)) :
    removeGo ps none (l :: rest) =
      if isCommentLine l then l :: removeGo ps none rest
      else if anyTest ps (trimL l) then
        if (cleanedL (trimL l)).isEmpty then removeGo ps none rest
        else if 0 < deltaL l then removeGo ps (some (deltaL l)) rest
        else removeGo ps none rest
      else l :: removeGo ps none rest := rfl

theorem removeGo_some_cons (ps : List Pat) (d : Int) (l : List Char)
    (rest : List (List Char)) :
    removeGo ps (some d) (l :: rest) =
      if 0 < d then removeGo ps (some (d + deltaL l)) rest
      else if trimL l = [';'] then removeGo ps none rest
      else removeGo ps none (l :: rest) := rfl

/-- Consumption mode agrees with the direct description by `consumeDepth`
and `dropSemi`: it drops lines until the balance is no longer positive,
then a dangling lone-semicolon line, then resumes scanning. -/
theorem removeGo_consume (ps : List Pat) : ∀ (ls : List (List Char)) {d : Int},
    0 < d → removeGo ps (some d) ls = removeGo ps none (dropSemi (consumeDepth d ls)) := by
  intro ls
  induction ls with
  | nil => intro d _; rfl
  | cons l rest ih =>
    intro d hd
    rw [removeGo_some_cons, if_pos hd]
    rw [show consumeDepth d (l :: rest) = consumeDepth (d + deltaL l) rest from by
      rw [consumeDepth, if_neg (by omega)]]
    by_cases hd2 : 0 < d + deltaL l
    · exact ih hd2
    · have hcd : consumeDepth (d + deltaL l) rest = rest := by
        cases rest with
        | nil => rfl
        | cons x xs => rw [consumeDepth, if_pos (by omega)]
      rw [hcd]
      cases rest with
      | nil => rfl
      | cons x xs =>
        rw [removeGo_some_cons, if_neg hd2]
        rw [dropSemi]
        by_cases hsemi : trimL x = [';']
        · rw [if_pos hsemi, if_pos hsemi]
        · rw [if_neg hsemi, if_neg hsemi]

/-- One-step unfolding of the removal loop in the shape of the source's
per-line decision procedure. -/
theorem removeLoop_cons (ps : List Pat) (l : List Char) (rest : List (List Char)) :
    removeLoop ps (l :: rest) =
      if isCommentLine l then l :: removeLoop ps rest
      else if anyTest ps (trimL l) then
        if (cleanedL (trimL l)).isEmpty then removeLoop ps rest
        else if 0 < deltaL l then
          removeLoop ps (dropSemi (consumeDepth (deltaL l) rest))
        else removeLoop ps rest
      else l :: removeLoop ps rest := by
  show removeGo ps none (l :: rest) = _
  rw [removeGo_none_cons]
  by_cases hc : isCommentLine l = true
  · simp [hc, removeLoop]
  · simp only [Bool.not_eq_true] at hc
    simp only [hc, Bool.false_eq_true, if_false]
    by_cases ht : anyTest ps (trimL l) = true
    · simp only [ht, if_true]
      by_cases he : (cleanedL (trimL l)).isEmpty = true
      · simp [he, removeLoop]
      · simp only [Bool.not_eq_true] at he
        simp only [he, Bool.false_eq_true, if_false]
        by_cases hd : 0 < deltaL l
        · rw [if_pos hd, if_pos hd, removeGo_consume ps rest hd]
          rfl
        · simp [hd, removeLoop]
    · simp only [Bool.not_eq_true] at ht
      simp [ht, removeLoop]

theorem removeLoop_nil (ps : List Pat) : removeLoop ps [] = [] := rfl

/-- The blank-line collapse (lines 336-342): skip an element that is blank
when the previous (original) element is blank. -/
def collapseGo (prev : List Char) : List (List Char) → List (List Char)
  | [] => []
  | x :: xs =>
    if (trimL x).isEmpty && (trimL prev).isEmpty then collapseGo x xs
    else x :: collapseGo x xs

/-- Collapse consecutive blank lines (the first element is always kept). -/
def collapseBlanks : List (List Char) → List (List Char)
  | [] => []
  | x :: xs => x :: collapseGo x xs

/-- `removeStatements(content, patterns)`. -/
def removeStatementsL (content : List Char) (ps : List Pat) : List Char :=
  joinLines (collapseBlanks (removeLoop ps (splitLines content)))

/-! ## Helper lemmas on the string primitives -/

/-- Every character of a list is whitespace. -/
def allSpace (l : List Char) : Prop := ∀ c ∈ l, jsSpace c = true

theorem stripPre_eq_some : ∀ {p t r : List Char}, stripPre p t = some r ↔ t = p ++ r := by
  intro p
  induction p with
  | nil =>
    intro t r
    constructor
    · intro h
      simpa [stripPre] using h
    · intro h
      simp [stripPre, h]
  | cons a ps ih =>
    intro t r
    cases t with
    | nil => simp [stripPre]
    | cons c cs =>
      simp only [stripPre, List.cons_append, List.cons.injEq]
      by_cases h : c = a
      · simp [h, ih]
      · simp [h]

theorem startsWithL_eq_true {p t : List Char} :
    startsWithL p t = true ↔ ∃ r, t = p ++ r := by
  unfold startsWithL
  cases hs : stripPre p t with
  | none =>
    simp only [Option.isSome_none, Bool.false_eq_true, false_iff]
    rintro ⟨r, rfl⟩
    rw [stripPre_eq_some.2 rfl] at hs
    exact Option.noConfusion hs
  | some r =>
    simp only [Option.isSome_some, true_iff]
    exact ⟨r, stripPre_eq_some.1 hs⟩

theorem jsSpace_not_word {c : Char} (h : jsSpace c = true) : isWordChar c = false := by
  simp only [jsSpace, Bool.or_eq_true, decide_eq_true_eq] at h
  rcases h with ((((((h | h) | h) | h) | h) | h) | h) <;> subst h <;> decide

theorem word_not_space {c : Char} (h : isWordChar c = true) : jsSpace c = false := by
  cases hs : jsSpace c with
  | false => rfl
  | true => rw [jsSpace_not_word hs] at h; exact Bool.noConfusion h

theorem allSpace_takeWhile (l : List Char) : allSpace (l.takeWhile jsSpace) := by
  intro c hc
  exact List.mem_takeWhile_imp hc

theorem dropWhile_sp_append {sp : List Char} (h : allSpace sp) (t : List Char) :
    (sp ++ t).dropWhile jsSpace = t.dropWhile jsSpace := by
  induction sp with
  | nil => simp
  | cons a s ih =>
    have ha : jsSpace a = true := h a (by simp)
    simp only [List.cons_append, List.dropWhile_cons, ha, if_true]
    exact ih (fun c hc => h c (by simp [hc]))

theorem allSpace_dropWhile_nil {sp : List Char} (h : allSpace sp) :
    sp.dropWhile jsSpace = [] := by
  have := dropWhile_sp_append h []
  simpa using this

/-- Dropping spaces from `u ++ sp` (with `sp` all-space): if `u` is all
spaces the result is empty, otherwise it is `u.dropWhile jsSpace ++ sp`. -/
theorem dropWhile_append_sp {u sp : List Char} (h : allSpace sp) :
    (u ++ sp).dropWhile jsSpace =
      if u.dropWhile jsSpace = [] then [] else u.dropWhile jsSpace ++ sp := by
  induction u with
  | nil => simp [allSpace_dropWhile_nil h]
  | cons a s ih =>
    by_cases ha : jsSpace a = true
    · simpa [List.dropWhile_cons, ha] using ih
    · simp [List.dropWhile_cons, ha]

theorem takeWhile_all_word {mm rest : List Char} (h : ∀ c ∈ mm, isWordChar c = true) :
    (mm ++ rest).takeWhile isWordChar = mm ++ rest.takeWhile isWordChar := by
  induction mm with
  | nil => simp
  | cons a s ih =>
    have ha := h a (by simp)
    simp only [List.cons_append, List.takeWhile_cons, ha, if_true]
    rw [ih (fun c hc => h c (by simp [hc]))]

/-- The trimmed line sits between two all-space stretches of the line. -/
theorem trim_decomp (l : List Char) :
    ∃ sp1 sp2, allSpace sp1 ∧ allSpace sp2 ∧ l = sp1 ++ trimL l ++ sp2 := by
  refine ⟨l.takeWhile jsSpace, ((l.dropWhile jsSpace).reverse.takeWhile jsSpace).reverse,
    allSpace_takeWhile l, ?_, ?_⟩
  · intro c hc
    rw [List.mem_reverse] at hc
    exact List.mem_takeWhile_imp hc
  · unfold trimL dropTrail
    conv_lhs => rw [← List.takeWhile_append_dropWhile (p := jsSpace) (l := l)]
    rw [List.append_assoc]
    congr 1
    rw [← List.reverse_append, List.takeWhile_append_dropWhile, List.reverse_reverse]

/-! ## splitLines / joinLines lemmas -/

theorem splitLines_ne_nil (c : List Char) : splitLines c ≠ [] := by
  cases c with
  | nil => simp [splitLines]
  | cons a cs =>
    simp only [splitLines]
    split
    · simp
    · cases splitLines cs <;> simp

theorem mem_splitLines_no_newline {c : List Char} :
    ∀ l ∈ splitLines c, '\n' ∉ l := by
  induction c with
  | nil => intro l hl; simp [splitLines] at hl; simp [hl]
  | cons a cs ih =>
    intro l hl
    simp only [splitLines] at hl
    by_cases ha : a = '\n'
    · rw [if_pos ha] at hl
      rcases List.mem_cons.1 hl with h | h
      · simp [h]
      · exact ih l h
    · rw [if_neg ha] at hl
      rcases hr : splitLines cs with _ | ⟨x, xs⟩
      · exact absurd hr (splitLines_ne_nil cs)
      · rw [hr] at hl
        rcases List.mem_cons.1 hl with h | h
        · subst h
          intro hm
          rcases List.mem_cons.1 hm with h | h
          · exact ha h.symm
          · exact ih x (by rw [hr]; simp) h
        · exact ih l (by rw [hr]; simp [h])

theorem splitLines_no_newline {l : List Char} (h : '\n' ∉ l) : splitLines l = [l] := by
  induction l with
  | nil => rfl
  | cons a cs ih =>
    have ha : a ≠ '\n' := fun hc => h (by simp [hc])
    have hcs : '\n' ∉ cs := fun hc => h (by simp [hc])
    simp only [splitLines, if_neg ha, ih hcs]

theorem splitLines_append_newline {l r : List Char} (h : '\n' ∉ l) :
    splitLines (l ++ '\n' :: r) = l :: splitLines r := by
  induction l with
  | nil => simp [splitLines]
  | cons a cs ih =>
    have ha : a ≠ '\n' := fun hc => h (by simp [hc])
    have hcs : '\n' ∉ cs := fun hc => h (by simp [hc])
    simp only [List.cons_append, splitLines, if_neg ha, List.append_eq, ih hcs]

theorem splitLines_joinLines : ∀ {ls : List (List Char)}, ls ≠ [] →
    (∀ l ∈ ls, '\n' ∉ l) → splitLines (joinLines ls) = ls := by
  intro ls
  induction ls with
  | nil => intro h; exact absurd rfl h
  | cons l rest ih =>
    intro _ hn
    cases rest with
    | nil => exact splitLines_no_newline (hn l (by simp))
    | cons l2 rs =>
      show splitLines (l ++ '\n' :: joinLines (l2 :: rs)) = _
      rw [splitLines_append_newline (hn l (by simp))]
      rw [ih (by simp) (fun x hx => hn x (by simp [List.mem_cons] at hx ⊢; tauto))]

/-! ## Matcher structure lemmas -/

/-- Wellformedness of a console alternation list: every method name is a
nonempty string of word characters (true of the fixed vocabulary). -/
def msWF (ms : List (List Char)) : Prop :=
  ∀ m ∈ ms, m ≠ [] ∧ ∀ c ∈ m, isWordChar c = true

theorem methods_wf : msWF CONSOLE_METHODS := by unfold msWF; decide

theorem msWF_filter {ms : List (List Char)} (h : msWF ms) (q : List Char → Bool) :
    msWF (ms.filter q) :=
  fun m hm => h m (List.mem_of_mem_filter hm)

theorem matchMethod_some {m t v r : List Char} (h : matchMethod m t = some (v, r)) :
    ∃ sp, allSpace sp ∧ v = m ++ sp ++ ['('] ∧ t = m ++ (sp ++ '(' :: r) := by
  unfold matchMethod at h
  split at h
  · exact Option.noConfusion h
  next rr hs =>
    split at h
    next r2 hd =>
      simp only [Option.some.injEq, Prod.mk.injEq] at h
      obtain ⟨hv, hr⟩ := h
      subst hr
      refine ⟨rr.takeWhile jsSpace, allSpace_takeWhile rr, hv.symm, ?_⟩
      have ht : t = m ++ rr := stripPre_eq_some.1 hs
      rw [ht]
      congr 1
      conv_lhs => rw [← List.takeWhile_append_dropWhile (p := jsSpace) (l := rr), hd]
    next hd => exact Option.noConfusion h

theorem firstMethod_some : ∀ {ms : List (List Char)} {t v r : List Char},
    firstMethod ms t = some (v, r) →
    ∃ mm ∈ ms, ∃ sp, allSpace sp ∧ v = mm ++ sp ++ ['('] ∧ t = mm ++ (sp ++ '(' :: r) := by
  intro ms
  induction ms with
  | nil => intro t v r h; exact Option.noConfusion h
  | cons m rest ih =>
    intro t v r h
    unfold firstMethod at h
    split at h
    next res hm =>
      cases h
      obtain ⟨sp, hsp, hv, ht⟩ := matchMethod_some hm
      exact ⟨m, by simp, sp, hsp, hv, ht⟩
    next hm =>
      obtain ⟨mm, hmm, sp, hsp, hv, ht⟩ := ih h
      exact ⟨mm, by simp [hmm], sp, hsp, hv, ht⟩

theorem consoleCore_some {ms : List (List Char)} {t m : List Char}
    (h : consoleCore ms t = some m) :
    ∃ sp1 sp2 mm sp3 rest, allSpace sp1 ∧ allSpace sp2 ∧ allSpace sp3 ∧ mm ∈ ms ∧
      m = strL "console" ++ sp1 ++ '.' :: (sp2 ++ (mm ++ sp3 ++ ['('])) ∧
      t = m ++ rest := by
  unfold consoleCore at h
  split at h
  · exact Option.noConfusion h
  next r1 hs =>
    split at h
    next r2 hd =>
      split at h
      next mmv rest hf =>
        cases h
        obtain ⟨mm, hmm, sp3, hsp3, hv, ht2⟩ := firstMethod_some hf
        refine ⟨r1.takeWhile jsSpace, r2.takeWhile jsSpace, mm, sp3, rest,
          allSpace_takeWhile r1, allSpace_takeWhile r2, hsp3, hmm, ?_, ?_⟩
        · rw [hv]
        · have ht : t = strL "console" ++ r1 := stripPre_eq_some.1 hs
          rw [ht]
          conv_lhs => rw [← List.takeWhile_append_dropWhile (p := jsSpace) (l := r1), hd]
          conv_lhs => rw [← List.takeWhile_append_dropWhile (p := jsSpace) (l := r2), ht2]
          rw [hv]
          simp [List.append_assoc]
      next hf => exact Option.noConfusion h
    next hd => exact Option.noConfusion h

theorem debuggerCore_some {t m : List Char} (h : debuggerCore t = some m) :
    ∃ sp sem, allSpace sp ∧ (sem = [] ∨ sem = [';']) ∧
      m = strL "debugger" ++ sp ++ sem ∧ ∃ rest, t = strL "debugger" ++ rest := by
  unfold debuggerCore at h
  split at h
  · exact Option.noConfusion h
  next hs =>
    cases h
    refine ⟨[], [], ?_, Or.inl rfl, ?_, [], stripPre_eq_some.1 hs⟩
    · intro c hc
      cases hc
    · simp
  next c cs hs =>
    split at h
    · exact Option.noConfusion h
    · split at h
      next r2 hd =>
        cases h
        refine ⟨(c :: cs).takeWhile jsSpace, [';'], allSpace_takeWhile _, Or.inr rfl,
          rfl, c :: cs, stripPre_eq_some.1 hs⟩
      next hd =>
        cases h
        refine ⟨(c :: cs).takeWhile jsSpace, [], allSpace_takeWhile _, Or.inl rfl,
          by simp, c :: cs, stripPre_eq_some.1 hs⟩

theorem alertCore_some {t m : List Char} (h : alertCore t = some m) :
    ∃ sp, allSpace sp ∧ m = strL "alert" ++ sp ++ ['('] ∧
      ∃ rest, t = strL "alert" ++ rest := by
  unfold alertCore at h
  split at h
  · exact Option.noConfusion h
  next r hs =>
    split at h
    next r2 hd =>
      cases h
      exact ⟨r.takeWhile jsSpace, allSpace_takeWhile r, rfl, r, stripPre_eq_some.1 hs⟩
    next hd => exact Option.noConfusion h

theorem matchCore_head {p : Pat} {t m : List Char} (h : matchCore p t = some m) :
    ∃ c cs, t = c :: cs ∧ jsSpace c = false := by
  cases p with
  | consoleP ms =>
    obtain ⟨sp1, sp2, mm, sp3, rest, _, _, _, _, hm, ht⟩ := consoleCore_some h
    subst hm
    exact ⟨'c', _, by simpa [strL] using ht, by decide⟩
  | debuggerP =>
    obtain ⟨sp, sem, _, _, _, rest, ht⟩ := debuggerCore_some h
    exact ⟨'d', _, by simpa [strL] using ht, by decide⟩
  | alertP =>
    obtain ⟨sp, _, _, rest, ht⟩ := alertCore_some h
    exact ⟨'a', _, by simpa [strL] using ht, by decide⟩

/-! ## Classification of match types -/

theorem containsSub_head_mem {c0 : Char} {p s : List Char}
    (h : containsSub (c0 :: p) s = true) : c0 ∈ s := by
  induction s with
  | nil => simp [containsSub, startsWithL, stripPre] at h
  | cons c cs ih =>
    simp only [containsSub, Bool.or_eq_true] at h
    rcases h with h | h
    · obtain ⟨r, hr⟩ := startsWithL_eq_true.1 h
      rw [List.cons_append] at hr
      injection hr with h1 h2
      subst h1
      simp
    · exact List.mem_cons_of_mem _ (ih h)

theorem not_containsSub_of_all {c0 : Char} {p s : List Char}
    (h : ∀ c ∈ s, c ≠ c0) : containsSub (c0 :: p) s = false := by
  cases hc : containsSub (c0 :: p) s with
  | false => rfl
  | true => exact absurd rfl (h c0 (containsSub_head_mem hc))

theorem startsWith_containsSub {p t : List Char} (h : startsWithL p t = true) :
    containsSub p t = true := by
  cases t with
  | nil => simpa [containsSub] using h
  | cons c cs => simp [containsSub, h]

theorem computeType_debugger {t m : List Char} (h : debuggerCore t = some m) :
    computeType m = strL "debugger" := by
  obtain ⟨sp, sem, hsp, hsem, hm, -⟩ := debuggerCore_some h
  have hnoC : ∀ c ∈ m, c ≠ 'c' := by
    intro c hc
    rw [hm] at hc
    simp only [List.append_assoc, List.mem_append] at hc
    rcases hc with hc | hc | hc
    · have hd : strL "debugger" = ['d', 'e', 'b', 'u', 'g', 'g', 'e', 'r'] := rfl
      rw [hd] at hc
      fin_cases hc <;> decide
    · intro hE
      subst hE
      exact absurd (hsp _ hc) (by decide)
    · rcases hsem with hE | hE <;> subst hE
      · cases hc
      · simp only [List.mem_singleton] at hc
        subst hc
        decide
  have h1 : containsSub (strL "console.") m = false := by
    have hcons : strL "console." = 'c' :: strL "onsole." := rfl
    rw [hcons]
    exact not_containsSub_of_all hnoC
  have h2 : containsSub (strL "debugger") m = true := by
    apply startsWith_containsSub
    rw [hm]
    exact startsWithL_eq_true.2 ⟨sp ++ sem, by simp⟩
  simp [computeType, h1, h2]

theorem computeType_alert {t m : List Char} (h : alertCore t = some m) :
    computeType m = strL "alert" := by
  obtain ⟨sp, hsp, hm, -⟩ := alertCore_some h
  have halert : strL "alert" = ['a', 'l', 'e', 'r', 't'] := rfl
  have hnoC : ∀ c ∈ m, c ≠ 'c' := by
    intro c hc
    rw [hm] at hc
    simp only [List.append_assoc, List.mem_append] at hc
    rcases hc with hc | hc | hc
    · rw [halert] at hc
      fin_cases hc <;> decide
    · intro hE
      subst hE
      exact absurd (hsp _ hc) (by decide)
    · simp only [List.mem_singleton] at hc
      subst hc
      decide
  have hnoD : ∀ c ∈ m, c ≠ 'd' := by
    intro c hc
    rw [hm] at hc
    simp only [List.append_assoc, List.mem_append] at hc
    rcases hc with hc | hc | hc
    · rw [halert] at hc
      fin_cases hc <;> decide
    · intro hE
      subst hE
      exact absurd (hsp _ hc) (by decide)
    · simp only [List.mem_singleton] at hc
      subst hc
      decide
  have h1 : containsSub (strL "console.") m = false := by
    have hcons : strL "console." = 'c' :: strL "onsole." := rfl
    rw [hcons]
    exact not_containsSub_of_all hnoC
  have h2 : containsSub (strL "debugger") m = false := by
    have hdeb : strL "debugger" = 'd' :: strL "ebugger" := rfl
    rw [hdeb]
    exact not_containsSub_of_all hnoD
  have h3 : containsSub (strL "alert") m = true := by
    apply startsWith_containsSub
    rw [hm]
    exact startsWithL_eq_true.2 ⟨sp ++ ['('], by simp⟩
  simp [computeType, h1, h2, h3]

theorem extractMethod_console {sp1 sp2 mm sp3 : List Char}
    (h1 : allSpace sp1) (h2 : allSpace sp2) (h3 : allSpace sp3)
    (hne : mm ≠ []) (hw : ∀ c ∈ mm, isWordChar c = true) :
    extractMethod (strL "console" ++ sp1 ++ '.' :: (sp2 ++ (mm ++ sp3 ++ ['(']))) = some mm := by
  obtain ⟨c0, mm', rfl⟩ := List.exists_cons_of_ne_nil hne
  have hm : strL "console" ++ sp1 ++ '.' :: (sp2 ++ (c0 :: mm' ++ sp3 ++ ['(']))
      = 'c' :: (strL "onsole" ++ (sp1 ++ '.' :: (sp2 ++ (c0 :: mm' ++ sp3 ++ ['('])))) := by
    simp [strL]
  rw [hm]
  have hc0 : jsSpace c0 = false := word_not_space (hw c0 (by simp))
  have hstrip : stripPre (strL "console") ('c' :: (strL "onsole" ++ (sp1 ++ '.' ::
      (sp2 ++ (c0 :: mm' ++ sp3 ++ ['(']))))) =
      some (sp1 ++ '.' :: (sp2 ++ (c0 :: mm' ++ sp3 ++ ['(']))) := by
    apply stripPre_eq_some.2
    simp [strL]
  have e1 : List.dropWhile jsSpace (sp1 ++ '.' :: (sp2 ++ (c0 :: mm' ++ sp3 ++ ['('])))
      = '.' :: (sp2 ++ (c0 :: mm' ++ sp3 ++ ['('])) := by
    rw [dropWhile_sp_append h1]
    exact List.dropWhile_cons_of_neg (by decide)
  have e2 : List.dropWhile jsSpace (sp2 ++ (c0 :: mm' ++ sp3 ++ ['(']))
      = c0 :: (mm' ++ sp3 ++ ['(']) := by
    rw [dropWhile_sp_append h2]
    rw [show c0 :: mm' ++ sp3 ++ ['('] = c0 :: (mm' ++ sp3 ++ ['(']) from by simp]
    exact List.dropWhile_cons_of_neg (by simp [hc0])
  have e3 : List.takeWhile isWordChar (c0 :: (mm' ++ sp3 ++ ['('])) = c0 :: mm' := by
    rw [show c0 :: (mm' ++ sp3 ++ ['(']) = (c0 :: mm') ++ (sp3 ++ ['(']) from by simp]
    rw [takeWhile_all_word hw]
    have hrest : (sp3 ++ ['(']).takeWhile isWordChar = [] := by
      cases sp3 with
      | nil =>
        simp only [List.nil_append]
        rw [List.takeWhile_cons_of_neg (by decide)]
      | cons s ss =>
        rw [List.cons_append, List.takeWhile_cons_of_neg]
        simp [jsSpace_not_word (h3 s (by simp))]
    rw [hrest]
    simp
  have hAt : extractAt ('c' :: (strL "onsole" ++ (sp1 ++ '.' ::
      (sp2 ++ (c0 :: mm' ++ sp3 ++ ['(']))))) = some (c0 :: mm') := by
    simp only [extractAt, hstrip, e1, e2, e3]
    simp
  simp only [extractMethod, hAt]

theorem computeType_console {ms : List (List Char)} {t m : List Char}
    (hwf : msWF ms) (h : consoleCore ms t = some m) :
    (∃ mm ∈ ms, computeType m = strL "console." ++ mm) ∨
      computeType m = strL "debugger" ∨ computeType m = strL "alert" ∨
      computeType m = strL "unknown" := by
  obtain ⟨sp1, sp2, mm, sp3, rest, hs1, hs2, hs3, hmm, hmEq, -⟩ := consoleCore_some h
  by_cases hc : containsSub (strL "console.") m = true
  · left
    refine ⟨mm, hmm, ?_⟩
    obtain ⟨hne, hw⟩ := hwf mm hmm
    have hx : extractMethod m = some mm := by
      rw [hmEq]
      have hassoc : strL "console" ++ sp1 ++ '.' :: (sp2 ++ (mm ++ sp3 ++ ['(']))
          = strL "console" ++ sp1 ++ '.' :: (sp2 ++ (mm ++ sp3 ++ ['('])) := rfl
      exact extractMethod_console hs1 hs2 hs3 hne hw
    simp [computeType, hc, hx]
  · right
    rw [Bool.not_eq_true] at hc
    by_cases hd : containsSub (strL "debugger") m = true
    · left
      simp [computeType, hc, hd]
    · rw [Bool.not_eq_true] at hd
      by_cases ha : containsSub (strL "alert") m = true
      · right; left
        simp [computeType, hc, hd, ha]
      · rw [Bool.not_eq_true] at ha
        right; right
        simp [computeType, hc, hd, ha]

/-- Wellformedness carried by a pattern (only the console alternation list
needs it). -/
def PatWF : Pat → Prop
  | Pat.consoleP ms => msWF ms
  | Pat.debuggerP => True
  | Pat.alertP => True

theorem buildPatterns_PatWF (keep : List (List Char)) :
    ∀ p ∈ buildPatternsL keep, PatWF p := by
  intro p hp
  unfold buildPatternsL at hp
  rcases List.mem_append.1 hp with h | h
  · split at h
    · cases h
    · simp only [List.mem_singleton] at h
      subst h
      exact msWF_filter methods_wf _
  · rcases List.mem_cons.1 h with h | h
    · subst h; trivial
    · simp only [List.mem_singleton] at h
      subst h; trivial

/-- Full classification of a matched pattern occurrence's computed type. -/
theorem computeType_classify {p : Pat} {t m : List Char} (hwf : PatWF p)
    (h : matchCore p t = some m) :
    (∃ ms, p = Pat.consoleP ms ∧ ∃ mm ∈ ms, computeType m = strL "console." ++ mm) ∨
      computeType m = strL "debugger" ∨ computeType m = strL "alert" ∨
      computeType m = strL "unknown" := by
  cases p with
  | consoleP ms =>
    rcases computeType_console hwf h with hcase | hcase
    · obtain ⟨mm, hmm, he⟩ := hcase
      exact Or.inl ⟨ms, rfl, mm, hmm, he⟩
    · exact Or.inr hcase
  | debuggerP => exact Or.inr (Or.inl (computeType_debugger h))
  | alertP => exact Or.inr (Or.inr (Or.inl (computeType_alert h)))

/-! ## Scanner lemmas -/

theorem scanGo_zero_eq_nil_iff (p : Pat) : ∀ (t : List Char) (prev : Option Char)
    (pos : Nat), (scanGo p 0 prev t pos = [] ↔ hasMatchB p prev t = false) := by
  intro t
  induction t with
  | nil => intro prev pos; simp [scanGo, hasMatchB]
  | cons c cs ih =>
    intro prev pos
    by_cases hb : boundaryOK prev = true
    · cases hmc : matchCore p (c :: cs) with
      | some m => simp [scanGo, hasMatchB, hmc, hb]
      | none => simp [scanGo, hasMatchB, hmc, hb, ih]
    · rw [Bool.not_eq_true] at hb
      simp [scanGo, hasMatchB, hb, ih]

theorem scanLine_eq_nil_iff {p : Pat} {line : List Char} :
    scanLine p line = [] ↔ testPat p line = false :=
  scanGo_zero_eq_nil_iff p line none 0

theorem mem_scanGo_core {p : Pat} : ∀ {t : List Char} {skip : Nat} {prev : Option Char}
    {pos : Nat} {qm : Nat × List Char}, qm ∈ scanGo p skip prev t pos →
    ∃ u, matchCore p u = some qm.2 := by
  intro t
  induction t with
  | nil => intro skip prev pos qm h; simp [scanGo] at h
  | cons c cs ih =>
    intro skip prev pos qm h
    cases skip with
    | succ n =>
      rw [scanGo] at h
      exact ih h
    | zero =>
      rw [scanGo] at h
      split at h
      · split at h
        next m hmc =>
          rcases List.mem_cons.1 h with h | h
          · subst h
            exact ⟨c :: cs, hmc⟩
          · exact ih h
        next hmc => exact ih h
      · exact ih h

theorem mem_scanGo_pos {p : Pat} : ∀ {t : List Char} {skip : Nat} {prev : Option Char}
    {pos : Nat} {qm : Nat × List Char}, qm ∈ scanGo p skip prev t pos → pos ≤ qm.1 := by
  intro t
  induction t with
  | nil => intro skip prev pos qm h; simp [scanGo] at h
  | cons c cs ih =>
    intro skip prev pos qm h
    cases skip with
    | succ n =>
      rw [scanGo] at h
      exact le_trans (Nat.le_succ _) (ih h)
    | zero =>
      rw [scanGo] at h
      split at h
      · split at h
        next m hmc =>
          rcases List.mem_cons.1 h with h | h
          · subst h; exact le_refl _
          · exact le_trans (Nat.le_succ _) (ih h)
        next hmc => exact le_trans (Nat.le_succ _) (ih h)
      · exact le_trans (Nat.le_succ _) (ih h)

theorem scanGo_pairwise {p : Pat} : ∀ {t : List Char} {skip : Nat} {prev : Option Char}
    {pos : Nat}, List.Pairwise (fun a b => a.1 ≤ b.1) (scanGo p skip prev t pos) := by
  intro t
  induction t with
  | nil => intro skip prev pos; simp [scanGo]
  | cons c cs ih =>
    intro skip prev pos
    cases skip with
    | succ n =>
      rw [scanGo]
      exact ih
    | zero =>
      rw [scanGo]
      split
      · split
        next m hmc =>
          refine List.Pairwise.cons ?_ ih
          intro qm hqm
          exact le_trans (Nat.le_succ _) (mem_scanGo_pos hqm)
        next hmc => exact ih
      · exact ih

/-! ## findMatches lemmas -/

theorem mem_lineMatches {ps : List Pat} {idx : Nat} {line : List Char} {mt : MatchR}
    (h : mt ∈ lineMatches ps idx line) :
    ∃ p ∈ ps, ∃ u m, matchCore p u = some m ∧ mt.type = computeType m ∧
      mt.line = idx + 1 ∧ mt.content = trimL line := by
  unfold lineMatches at h
  split at h
  · cases h
  · obtain ⟨p, hp, hmem⟩ := List.mem_flatMap.1 h
    obtain ⟨qm, hqm, rfl⟩ := List.mem_map.1 hmem
    obtain ⟨u, hu⟩ := mem_scanGo_core hqm
    exact ⟨p, hp, u, qm.2, hu, rfl, rfl, rfl⟩

theorem lineMatches_comment {ps : List Pat} {idx : Nat} {line : List Char}
    (h : isCommentLine line = true) : lineMatches ps idx line = [] := by
  simp [lineMatches, h]

theorem lineMatches_no_test {ps : List Pat} {idx : Nat} {line : List Char}
    (h : ∀ p ∈ ps, testPat p line = false) : lineMatches ps idx line = [] := by
  unfold lineMatches
  split
  · rfl
  · apply List.flatMap_eq_nil_iff.2
    intro p hp
    rw [scanLine_eq_nil_iff.2 (h p hp)]
    rfl

theorem mem_scanAll {ps : List Pat} {mt : MatchR} :
    ∀ {i : Nat} {ls : List (List Char)}, mt ∈ scanAll ps i ls →
    ∃ j line, mt ∈ lineMatches ps j line := by
  intro i ls
  induction ls generalizing i with
  | nil => intro h; simp [scanAll] at h
  | cons l rest ih =>
    intro h
    rcases List.mem_append.1 h with h | h
    · exact ⟨i, l, h⟩
    · exact ih h

theorem scanAll_line_lb {ps : List Pat} {mt : MatchR} :
    ∀ {i : Nat} {ls : List (List Char)}, mt ∈ scanAll ps i ls → i + 1 ≤ mt.line := by
  intro i ls
  induction ls generalizing i with
  | nil => intro h; simp [scanAll] at h
  | cons l rest ih =>
    intro h
    rcases List.mem_append.1 h with h | h
    · obtain ⟨-, -, -, -, -, -, hline, -⟩ := mem_lineMatches h
      omega
    · have := ih h
      omega

theorem scanAll_pairwise {ps : List Pat} : ∀ {i : Nat} {ls : List (List Char)},
    List.Pairwise (fun a b => a.line ≤ b.line) (scanAll ps i ls) := by
  intro i ls
  induction ls generalizing i with
  | nil => simp [scanAll]
  | cons l rest ih =>
    rw [scanAll]
    apply List.pairwise_append.2
    refine ⟨?_, ih, ?_⟩
    · apply List.pairwise_of_forall_mem_list
      intro a ha b hb
      obtain ⟨-, -, -, -, -, -, hla, -⟩ := mem_lineMatches ha
      obtain ⟨-, -, -, -, -, -, hlb, -⟩ := mem_lineMatches hb
      omega
    · intro a ha b hb
      obtain ⟨-, -, -, -, -, -, hla, -⟩ := mem_lineMatches ha
      have := scanAll_line_lb hb
      omega

theorem scanAll_nil {ps : List Pat} : ∀ {i : Nat} {ls : List (List Char)},
    (∀ l ∈ ls, ∀ j : Nat, lineMatches ps j l = []) → scanAll ps i ls = [] := by
  intro i ls
  induction ls generalizing i with
  | nil => intro _; rfl
  | cons l rest ih =>
    intro h
    rw [scanAll, h l (by simp) i, List.nil_append]
    exact ih (fun x hx => h x (by simp [hx]))

/-! ## Removal-loop lemmas -/

/-- A line the per-line decision of the removal loop keeps: a comment line
or a line matched by no active pattern. -/
def keepable (ps : List Pat) (l : List Char) : Prop :=
  isCommentLine l = true ∨ anyTest ps (trimL l) = false

instance keepableDec (ps : List Pat) (l : List Char) : Decidable (keepable ps l) :=
  inferInstanceAs (Decidable (isCommentLine l = true ∨ anyTest ps (trimL l) = false))

theorem consumeDepth_sublist : ∀ (d : Int) (ls : List (List Char)),
    (consumeDepth d ls).Sublist ls := by
  intro d ls
  induction ls generalizing d with
  | nil => simp [consumeDepth]
  | cons a as ih =>
    rw [consumeDepth]
    split
    · exact List.Sublist.refl _
    · exact (ih _).cons a

theorem dropSemi_sublist (ls : List (List Char)) : (dropSemi ls).Sublist ls := by
  cases ls with
  | nil => simp [dropSemi]
  | cons a as =>
    rw [dropSemi]
    split
    · exact (List.Sublist.refl as).cons a
    · exact List.Sublist.refl _

theorem removeGo_sublist (ps : List Pat) : ∀ (ls : List (List Char)) (mode : Option Int),
    (removeGo ps mode ls).Sublist ls := by
  intro ls
  induction ls with
  | nil => intro mode; simp [removeGo]
  | cons l rest ih =>
    have hstep : (removeGo ps none (l :: rest)).Sublist (l :: rest) := by
      rw [removeGo_none_cons]
      by_cases hc : isCommentLine l = true
      · rw [if_pos hc]
        exact (ih none).cons₂ l
      · rw [if_neg hc]
        by_cases ht : anyTest ps (trimL l) = true
        · rw [if_pos ht]
          by_cases he : (cleanedL (trimL l)).isEmpty = true
          · rw [if_pos he]
            exact (ih none).cons l
          · rw [if_neg he]
            by_cases hd : 0 < deltaL l
            · rw [if_pos hd]
              exact (ih _).cons l
            · rw [if_neg hd]
              exact (ih none).cons l
        · rw [if_neg ht]
          exact (ih none).cons₂ l
    intro mode
    cases mode with
    | none => exact hstep
    | some d =>
      rw [removeGo_some_cons]
      by_cases hd : 0 < d
      · rw [if_pos hd]
        exact (ih _).cons l
      · rw [if_neg hd]
        by_cases hs : trimL l = [';']
        · rw [if_pos hs]
          exact (ih none).cons l
        · rw [if_neg hs]
          exact hstep

theorem removeLoop_sublist (ps : List Pat) (ls : List (List Char)) :
    (removeLoop ps ls).Sublist ls :=
  removeGo_sublist ps ls none

/-- Every line the removal loop emits is a comment line or a line no
active pattern matches (all matched lines are dropped). -/
theorem removeGo_inv {ps : List Pat} : ∀ {ls : List (List Char)} {mode : Option Int}
    {x : List Char}, x ∈ removeGo ps mode ls → keepable ps x := by
  intro ls
  induction ls with
  | nil => intro mode x h; simp [removeGo] at h
  | cons l rest ih =>
    have hstep : ∀ {x : List Char}, x ∈ removeGo ps none (l :: rest) → keepable ps x := by
      intro x h
      rw [removeGo_none_cons] at h
      by_cases hc : isCommentLine l = true
      · rw [if_pos hc] at h
        rcases List.mem_cons.1 h with h | h
        · subst h; exact Or.inl hc
        · exact ih h
      · rw [if_neg hc] at h
        by_cases ht : anyTest ps (trimL l) = true
        · rw [if_pos ht] at h
          by_cases he : (cleanedL (trimL l)).isEmpty = true
          · rw [if_pos he] at h
            exact ih h
          · rw [if_neg he] at h
            by_cases hd : 0 < deltaL l
            · rw [if_pos hd] at h
              exact ih h
            · rw [if_neg hd] at h
              exact ih h
        · rw [if_neg ht] at h
          rcases List.mem_cons.1 h with h | h
          · subst h
            rw [Bool.not_eq_true] at ht
            exact Or.inr ht
          · exact ih h
    intro mode x h
    cases mode with
    | none => exact hstep h
    | some d =>
      rw [removeGo_some_cons] at h
      by_cases hd : 0 < d
      · rw [if_pos hd] at h
        exact ih h
      · rw [if_neg hd] at h
        by_cases hs : trimL l = [';']
        · rw [if_pos hs] at h
          exact ih h
        · rw [if_neg hs] at h
          exact hstep h

theorem removeLoop_inv {ps : List Pat} {ls : List (List Char)} {x : List Char}
    (h : x ∈ removeLoop ps ls) : keepable ps x :=
  removeGo_inv h

/-- The removal loop is the identity on a list of keepable lines. -/
theorem removeLoop_id {ps : List Pat} : ∀ {ls : List (List Char)},
    (∀ x ∈ ls, keepable ps x) → removeLoop ps ls = ls := by
  intro ls
  induction ls with
  | nil => intro _; rfl
  | cons l rest ih =>
    intro h
    have hrest : ∀ x ∈ rest, keepable ps x := fun x hx => h x (by simp [hx])
    by_cases hc : isCommentLine l = true
    · rw [removeLoop_cons, if_pos hc, ih hrest]
    · rcases h l (by simp) with hcl | ht
      · exact absurd hcl hc
      · rw [removeLoop_cons, if_neg hc, if_neg (by simp [ht]), ih hrest]

/-- Keepable lines pass through the removal loop unchanged, in front of
whatever the loop does with the rest. -/
theorem removeLoop_append_keep {ps : List Pat} {pre rest : List (List Char)}
    (h : ∀ x ∈ pre, keepable ps x) :
    removeLoop ps (pre ++ rest) = pre ++ removeLoop ps rest := by
  induction pre with
  | nil => simp
  | cons l p ih =>
    have hp : ∀ x ∈ p, keepable ps x := fun x hx => h x (by simp [hx])
    by_cases hc : isCommentLine l = true
    · rw [List.cons_append, removeLoop_cons, if_pos hc, ih hp, List.cons_append]
    · rcases h l (by simp) with hcl | ht
      · exact absurd hcl hc
      · rw [List.cons_append, removeLoop_cons, if_neg hc, if_neg (by simp [ht]), ih hp,
          List.cons_append]

/-- Sum of the parenthesis balances of a list of lines. -/
def sumDelta (ls : List (List Char)) : Int := (ls.map deltaL).sum

/-- If the cumulative balance stays positive on every proper prefix of
`mid` and reaches exactly zero over all of `mid`, the consumption loop
consumes exactly `mid`. -/
theorem consumeDepth_exact : ∀ {mid : List (List Char)} {d : Int}
    (post : List (List Char)),
    (∀ j, j < mid.length → 0 < d + sumDelta (mid.take j)) →
    d + sumDelta mid = 0 →
    consumeDepth d (mid ++ post) = post := by
  intro mid
  induction mid with
  | nil =>
    intro d post _ htot
    simp only [sumDelta, List.map_nil, List.sum_nil, add_zero] at htot
    subst htot
    cases post with
    | nil => simp [consumeDepth]
    | cons x xs => rw [List.nil_append, consumeDepth, if_pos (by omega)]
  | cons m ms ih =>
    intro d post hpre htot
    have hd : 0 < d := by
      have h0 := hpre 0 (by simp)
      simpa [sumDelta] using h0
    rw [List.cons_append, consumeDepth, if_neg (by omega)]
    have hsum : sumDelta (m :: ms) = deltaL m + sumDelta ms := by
      simp [sumDelta]
    apply ih
    · intro j hj
      have hj1 := hpre (j + 1) (by simpa using Nat.succ_lt_succ hj)
      have htake : sumDelta ((m :: ms).take (j + 1)) = deltaL m + sumDelta (ms.take j) := by
        simp [sumDelta, List.take_succ_cons]
      rw [htake] at hj1
      omega
    · rw [hsum] at htot
      omega

/-! ## Collapse lemmas -/

theorem mem_collapseGo : ∀ {prev : List Char} {ls : List (List Char)} {x : List Char},
    x ∈ collapseGo prev ls → x ∈ ls := by
  intro prev ls
  induction ls generalizing prev with
  | nil => intro x h; simp [collapseGo] at h
  | cons a as ih =>
    intro x h
    rw [collapseGo] at h
    split at h
    · exact List.mem_cons_of_mem _ (ih h)
    · rcases List.mem_cons.1 h with h | h
      · simp [h]
      · exact List.mem_cons_of_mem _ (ih h)

theorem collapseGo_sublist : ∀ (prev : List Char) (ls : List (List Char)),
    (collapseGo prev ls).Sublist ls := by
  intro prev ls
  induction ls generalizing prev with
  | nil => simp [collapseGo]
  | cons a as ih =>
    rw [collapseGo]
    split
    · exact (ih a).cons a
    · exact (ih a).cons₂ a

theorem mem_collapseBlanks {ls : List (List Char)} {x : List Char}
    (h : x ∈ collapseBlanks ls) : x ∈ ls := by
  cases ls with
  | nil => simp [collapseBlanks] at h
  | cons a as =>
    rw [collapseBlanks] at h
    rcases List.mem_cons.1 h with h | h
    · simp [h]
    · exact List.mem_cons_of_mem _ (mem_collapseGo h)

theorem collapseBlanks_sublist (ls : List (List Char)) :
    (collapseBlanks ls).Sublist ls := by
  cases ls with
  | nil => simp [collapseBlanks]
  | cons a as =>
    rw [collapseBlanks]
    exact (collapseGo_sublist a as).cons₂ a

/-- Adjacent output lines are never both blank. -/
def noTwoBlank (a b : List Char) : Prop :=
  ¬((trimL a).isEmpty = true ∧ (trimL b).isEmpty = true)

instance noTwoBlankDec (a b : List Char) : Decidable (noTwoBlank a b) :=
  inferInstanceAs (Decidable (¬((trimL a).isEmpty = true ∧ (trimL b).isEmpty = true)))

theorem collapseGo_chain : ∀ {prev : List Char} {ls : List (List Char)},
    List.Chain' noTwoBlank (prev :: collapseGo prev ls) := by
  intro prev ls
  induction ls generalizing prev with
  | nil => simp [collapseGo]
  | cons a as ih =>
    rw [collapseGo]
    split
    next hcond =>
      rw [Bool.and_eq_true] at hcond
      have hx : (trimL a).isEmpty = true := hcond.1
      have hchain := @ih a
      rcases List.chain'_cons'.1 hchain with ⟨hhead, htail⟩
      apply List.chain'_cons'.2
      refine ⟨?_, htail⟩
      intro b hb
      have hab := hhead b hb
      intro hcon
      exact hab ⟨hx, hcon.2⟩
    next hcond =>
      apply List.chain'_cons'.2
      refine ⟨?_, @ih a⟩
      intro b hb
      simp only [List.head?_cons, Option.mem_def, Option.some.injEq] at hb
      subst hb
      intro hcon
      apply hcond
      rw [Bool.and_eq_true]
      exact ⟨hcon.2, hcon.1⟩

theorem collapseBlanks_chain (ls : List (List Char)) :
    List.Chain' noTwoBlank (collapseBlanks ls) := by
  cases ls with
  | nil => simp [collapseBlanks]
  | cons a as =>
    rw [collapseBlanks]
    exact collapseGo_chain

theorem collapseGo_id : ∀ {prev : List Char} {ls : List (List Char)},
    List.Chain' noTwoBlank (prev :: ls) → collapseGo prev ls = ls := by
  intro prev ls
  induction ls generalizing prev with
  | nil => intro _; rfl
  | cons a as ih =>
    intro h
    rcases List.chain'_cons.1 h with ⟨hpa, htail⟩
    rw [collapseGo]
    split
    next hcond =>
      rw [Bool.and_eq_true] at hcond
      exact absurd ⟨hcond.2, hcond.1⟩ hpa
    next hcond =>
      rw [ih htail]

theorem collapseBlanks_id {ls : List (List Char)}
    (h : List.Chain' noTwoBlank ls) : collapseBlanks ls = ls := by
  cases ls with
  | nil => rfl
  | cons a as =>
    rw [collapseBlanks, collapseGo_id h]

theorem mem_collapseGo_of_nonblank : ∀ {prev : List Char} {ls : List (List Char)}
    {x : List Char}, (trimL x).isEmpty = false → x ∈ ls → x ∈ collapseGo prev ls := by
  intro prev ls
  induction ls generalizing prev with
  | nil => intro _ _ h; cases h
  | cons a as ih =>
    intro x hx h
    rw [collapseGo]
    rcases List.mem_cons.1 h with h | h
    · subst h
      split
      next hcond =>
        rw [Bool.and_eq_true] at hcond
        rw [hcond.1] at hx
        cases hx
      next hcond => simp
    · split
      · exact ih hx h
      · exact List.mem_cons_of_mem _ (ih hx h)

theorem mem_collapseBlanks_of_nonblank {ls : List (List Char)} {x : List Char}
    (hx : (trimL x).isEmpty = false) (h : x ∈ ls) : x ∈ collapseBlanks ls := by
  cases ls with
  | nil => cases h
  | cons a as =>
    rw [collapseBlanks]
    rcases List.mem_cons.1 h with h | h
    · simp [h]
    · exact List.mem_cons_of_mem _ (mem_collapseGo_of_nonblank hx h)

/-! ## Matching is preserved by trimming

The removal loop tests patterns against the trimmed line while the
scanner runs on the raw line; these lemmas show a raw-line match yields a
trimmed-line match (each matcher's matched text starts at a non-space
character and only commits after a required non-space character, so
stripping all-space ends of a line cannot destroy match existence). -/

theorem stripPre_append_sp : ∀ {w u sp r : List Char},
    (∀ c ∈ w, jsSpace c = false) → allSpace sp →
    stripPre w (u ++ sp) = some r →
    ∃ u2, u = w ++ u2 ∧ r = u2 ++ sp := by
  intro w
  induction w with
  | nil =>
    intro u sp r _ _ h
    refine ⟨u, rfl, ?_⟩
    have : u ++ sp = r := by simpa [stripPre] using h
    exact this.symm
  | cons a w' ih =>
    intro u sp r hw hsp h
    cases u with
    | nil =>
      exfalso
      cases sp with
      | nil => simp [stripPre] at h
      | cons s ss =>
        rw [List.nil_append, stripPre] at h
        split at h
        next heq =>
          have ha := hw a (by simp)
          have hs := hsp s (by simp)
          rw [heq] at hs
          rw [hs] at ha
          exact Bool.noConfusion ha
        next => exact Option.noConfusion h
    | cons b u' =>
      rw [List.cons_append, stripPre] at h
      split at h
      next heq =>
        subst heq
        obtain ⟨u2, h1, h2⟩ := ih (fun c hc => hw c (by simp [hc])) hsp h
        exact ⟨u2, by rw [h1, List.cons_append], h2⟩
      next => exact Option.noConfusion h

theorem matchMethod_isSome_iff {m t : List Char} :
    (matchMethod m t).isSome = true ↔
      ∃ v x, stripPre m t = some v ∧ v.dropWhile jsSpace = '(' :: x := by
  cases hs : stripPre m t with
  | none => simp [matchMethod, hs]
  | some v =>
    constructor
    · intro h
      simp only [matchMethod, hs] at h
      split at h
      next x heq => exact ⟨v, x, rfl, heq⟩
      next => simp at h
    · rintro ⟨v1, x, hv, hd⟩
      injection hv with hv
      subst hv
      simp only [matchMethod, hs, hd]
      rfl

theorem matchMethod_isSome_sp {m v sp : List Char}
    (hw : ∀ c ∈ m, isWordChar c = true) (hsp : allSpace sp) :
    (matchMethod m (v ++ sp)).isSome = (matchMethod m v).isSome := by
  have hns : ∀ c ∈ m, jsSpace c = false := fun c hc => word_not_space (hw c hc)
  cases h1 : (matchMethod m v).isSome with
  | true =>
    obtain ⟨v', x, hs, hd⟩ := matchMethod_isSome_iff.1 h1
    apply matchMethod_isSome_iff.2
    refine ⟨v' ++ sp, x ++ sp, ?_, ?_⟩
    · exact stripPre_eq_some.2 (by rw [stripPre_eq_some.1 hs, List.append_assoc])
    · rw [dropWhile_append_sp hsp, if_neg (by rw [hd]; simp), hd, List.cons_append]
  | false =>
    cases h2 : (matchMethod m (v ++ sp)).isSome with
    | false => rfl
    | true =>
      obtain ⟨v1, x, hs, hd⟩ := matchMethod_isSome_iff.1 h2
      obtain ⟨u2, hu, hr⟩ := stripPre_append_sp hns hsp hs
      subst hr
      have hsv : stripPre m v = some u2 := stripPre_eq_some.2 hu
      rw [dropWhile_append_sp hsp] at hd
      by_cases hdw : u2.dropWhile jsSpace = []
      · rw [if_pos hdw] at hd
        exact List.noConfusion hd
      · rw [if_neg hdw] at hd
        cases hu2 : u2.dropWhile jsSpace with
        | nil => exact absurd hu2 hdw
        | cons c y =>
          rw [hu2, List.cons_append] at hd
          injection hd with hd1 hd2
          have hgood : (matchMethod m v).isSome = true :=
            matchMethod_isSome_iff.2 ⟨u2, y, hsv, by rw [hu2, hd1]⟩
          rw [h1] at hgood
          exact Bool.noConfusion hgood

theorem firstMethod_isSome_sp : ∀ {ms : List (List Char)} {v sp : List Char},
    msWF ms → allSpace sp →
    (firstMethod ms (v ++ sp)).isSome = (firstMethod ms v).isSome := by
  intro ms
  induction ms with
  | nil => intro v sp _ _; simp [firstMethod]
  | cons m rest ih =>
    intro v sp hwf hsp
    rw [firstMethod, firstMethod]
    have hm := matchMethod_isSome_sp (m := m) (v := v) (hwf m (by simp)).2 hsp
    cases h1 : matchMethod m v with
    | some res =>
      cases h2 : matchMethod m (v ++ sp) with
      | some res2 => simp
      | none => rw [h1, h2] at hm; simp at hm
    | none =>
      cases h2 : matchMethod m (v ++ sp) with
      | some res2 => rw [h1, h2] at hm; simp at hm
      | none => exact ih (fun x hx => hwf x (by simp [hx])) hsp

theorem firstMethod_nil_none : ∀ {ms : List (List Char)}, msWF ms →
    firstMethod ms [] = none := by
  intro ms
  induction ms with
  | nil => intro _; rfl
  | cons m rest ih =>
    intro hwf
    rw [firstMethod]
    have hm : matchMethod m [] = none := by
      obtain ⟨hne, -⟩ := hwf m (by simp)
      obtain ⟨c0, m', rfl⟩ := List.exists_cons_of_ne_nil hne
      rfl
    rw [hm]
    exact ih (fun x hx => hwf x (by simp [hx]))

theorem consoleCore_isSome_sp {ms : List (List Char)} {u sp : List Char}
    (hwf : msWF ms) (hsp : allSpace sp)
    (h : (consoleCore ms (u ++ sp)).isSome = true) :
    (consoleCore ms u).isSome = true := by
  have hcs : ∀ c ∈ strL "console", jsSpace c = false := by decide
  cases hs : stripPre (strL "console") (u ++ sp) with
  | none => simp [consoleCore, hs] at h
  | some r =>
    obtain ⟨u1, hu, hr⟩ := stripPre_append_sp hcs hsp hs
    subst hr
    have e1 : stripPre (strL "console") u = some u1 := stripPre_eq_some.2 hu
    simp only [consoleCore, hs] at h
    split at h
    next r2 heq =>
      rw [dropWhile_append_sp hsp] at heq
      by_cases hdw : u1.dropWhile jsSpace = []
      · rw [if_pos hdw] at heq
        exact List.noConfusion heq
      · rw [if_neg hdw] at heq
        cases hu1 : u1.dropWhile jsSpace with
        | nil => exact absurd hu1 hdw
        | cons c y =>
          rw [hu1, List.cons_append] at heq
          injection heq with hceq hr2
          subst hceq
          subst hr2
          rw [dropWhile_append_sp hsp] at h
          by_cases hdy : y.dropWhile jsSpace = []
          · rw [if_pos hdy, firstMethod_nil_none hwf] at h
            simp at h
          · rw [if_neg hdy] at h
            split at h
            next mm rest2 hf =>
              have hfs : (firstMethod ms (y.dropWhile jsSpace ++ sp)).isSome = true := by
                rw [hf]; rfl
              rw [firstMethod_isSome_sp hwf hsp] at hfs
              rw [Option.isSome_iff_exists] at hfs
              obtain ⟨res, hres⟩ := hfs
              obtain ⟨mm2, rest3⟩ := res
              simp only [consoleCore, e1, hu1, hres]
              rfl
            next hf => simp at h
    next heq => simp at h

theorem debuggerCore_always_some {c : Char} {cs : List Char} {t : List Char}
    (hcw : isWordChar c = false) (hs : stripPre (strL "debugger") t = some (c :: cs)) :
    (debuggerCore t).isSome = true := by
  simp only [debuggerCore, hs, hcw, Bool.false_eq_true, if_false]
  split <;> rfl

theorem debuggerCore_isSome_sp {u sp : List Char} (hsp : allSpace sp)
    (h : (debuggerCore (u ++ sp)).isSome = true) :
    (debuggerCore u).isSome = true := by
  have hds : ∀ c ∈ strL "debugger", jsSpace c = false := by decide
  cases hs : stripPre (strL "debugger") (u ++ sp) with
  | none => simp [debuggerCore, hs] at h
  | some r =>
    obtain ⟨u2, hu, hr⟩ := stripPre_append_sp hds hsp hs
    subst hr
    have e1 : stripPre (strL "debugger") u = some u2 := stripPre_eq_some.2 hu
    cases u2 with
    | nil =>
      simp only [debuggerCore, e1]
      rfl
    | cons c u2' =>
      by_cases hcw : isWordChar c = true
      · exfalso
        rw [show (c :: u2') ++ sp = c :: (u2' ++ sp) from List.cons_append c u2' sp] at hs
        simp only [debuggerCore, hs, hcw, if_true] at h
        simp at h
      · rw [Bool.not_eq_true] at hcw
        exact debuggerCore_always_some hcw e1

theorem alertCore_isSome_sp {u sp : List Char} (hsp : allSpace sp)
    (h : (alertCore (u ++ sp)).isSome = true) :
    (alertCore u).isSome = true := by
  have has : ∀ c ∈ strL "alert", jsSpace c = false := by decide
  cases hs : stripPre (strL "alert") (u ++ sp) with
  | none => simp [alertCore, hs] at h
  | some r =>
    obtain ⟨u2, hu, hr⟩ := stripPre_append_sp has hsp hs
    subst hr
    have e1 : stripPre (strL "alert") u = some u2 := stripPre_eq_some.2 hu
    simp only [alertCore, hs] at h
    split at h
    next r2 heq =>
      rw [dropWhile_append_sp hsp] at heq
      by_cases hdw : u2.dropWhile jsSpace = []
      · rw [if_pos hdw] at heq
        exact List.noConfusion heq
      · rw [if_neg hdw] at heq
        cases hu2 : u2.dropWhile jsSpace with
        | nil => exact absurd hu2 hdw
        | cons c y =>
          rw [hu2, List.cons_append] at heq
          injection heq with hceq hr2
          subst hceq
          simp only [alertCore, e1, hu2]
          rfl
    next heq => simp at h

theorem matchCore_isSome_sp {p : Pat} {u sp : List Char} (hwf : PatWF p)
    (hsp : allSpace sp) (h : (matchCore p (u ++ sp)).isSome = true) :
    (matchCore p u).isSome = true := by
  cases p with
  | consoleP ms => exact consoleCore_isSome_sp hwf hsp h
  | debuggerP => exact debuggerCore_isSome_sp hsp h
  | alertP => exact alertCore_isSome_sp hsp h

theorem matchCore_space_head {p : Pat} {s : Char} {x : List Char} (hs : jsSpace s = true) :
    matchCore p (s :: x) = none := by
  cases hmc : matchCore p (s :: x) with
  | none => rfl
  | some m =>
    obtain ⟨c, cs, hE, hns⟩ := matchCore_head hmc
    injection hE with h1 h2
    rw [h1] at hs
    rw [hns] at hs
    exact Bool.noConfusion hs

theorem hasMatchB_allSpace {p : Pat} : ∀ {sp : List Char} {prev : Option Char},
    allSpace sp → hasMatchB p prev sp = false := by
  intro sp
  induction sp with
  | nil => intro prev _; rfl
  | cons s ss ih =>
    intro prev hsp
    rw [hasMatchB, matchCore_space_head (hsp s (by simp))]
    simp only [Option.isSome_none, Bool.and_false, Bool.false_or]
    exact ih (fun c hc => hsp c (by simp [hc]))

theorem hasMatchB_prev_eq {p : Pat} {t : List Char} {p1 p2 : Option Char}
    (h : boundaryOK p1 = boundaryOK p2) : hasMatchB p p1 t = hasMatchB p p2 t := by
  cases t with
  | nil => rfl
  | cons c cs => rw [hasMatchB, hasMatchB, h]

theorem hasMatchB_sp_left {p : Pat} : ∀ {sp t : List Char},
    allSpace sp → hasMatchB p none (sp ++ t) = hasMatchB p none t := by
  intro sp
  induction sp with
  | nil => intro t _; rfl
  | cons s ss ih =>
    intro t hsp
    rw [List.cons_append, hasMatchB, matchCore_space_head (hsp s (by simp))]
    simp only [Option.isSome_none, Bool.and_false, Bool.false_or]
    rw [@hasMatchB_prev_eq p (ss ++ t) (some s) none
      (by simp [boundaryOK, jsSpace_not_word (hsp s (by simp))])]
    exact ih (fun c hc => hsp c (by simp [hc]))

theorem hasMatchB_sp_right {p : Pat} (hwf : PatWF p) : ∀ {u : List Char}
    {prev : Option Char} {sp : List Char}, allSpace sp →
    hasMatchB p prev (u ++ sp) = true → hasMatchB p prev u = true := by
  intro u
  induction u with
  | nil =>
    intro prev sp hsp h
    rw [List.nil_append, hasMatchB_allSpace hsp] at h
    exact Bool.noConfusion h
  | cons c cs ih =>
    intro prev sp hsp h
    rw [List.cons_append, hasMatchB] at h
    rw [hasMatchB]
    rw [Bool.or_eq_true] at h
    rcases h with h | h
    · rw [Bool.and_eq_true] at h
      rcases h with ⟨hb, hm⟩
      have hm2 : (matchCore p ((c :: cs) ++ sp)).isSome = true := by
        rw [List.cons_append]; exact hm
      rw [hb, matchCore_isSome_sp hwf hsp hm2]
      simp
    · rw [ih hsp h]
      simp

/-- A pattern matching somewhere in a raw line also matches somewhere in
the trimmed line. -/
theorem hasMatchB_trim {p : Pat} (hwf : PatWF p) {l : List Char}
    (h : hasMatchB p none l = true) : hasMatchB p none (trimL l) = true := by
  obtain ⟨sp1, sp2, h1, h2, hdec⟩ := trim_decomp l
  rw [hdec, List.append_assoc, hasMatchB_sp_left h1] at h
  exact hasMatchB_sp_right hwf h2 h

/-! ## Assorted helpers for the claim theorems -/

theorem contains_iff_memL {keep : List (List Char)} {m : List Char} :
    keep.contains m = true ↔ m ∈ keep := by
  simp only [List.contains]
  exact List.elem_iff

theorem comment_nonblank {x : List Char} (h : isCommentLine x = true) :
    (trimL x).isEmpty = false := by
  cases ht : trimL x with
  | cons c cs => rfl
  | nil =>
    exfalso
    unfold isCommentLine at h
    rw [ht] at h
    simp [startsWithL, stripPre, strL] at h

/-- A line that opens a multi-line consumption in the removal loop. -/
def startsMulti (ps : List Pat) (l : List Char) : Prop :=
  isCommentLine l = false ∧ anyTest ps (trimL l) = true ∧
    (cleanedL (trimL l)).isEmpty = false ∧ 0 < deltaL l

instance startsMultiDec (ps : List Pat) (l : List Char) : Decidable (startsMulti ps l) :=
  inferInstanceAs (Decidable (isCommentLine l = false ∧ anyTest ps (trimL l) = true ∧
    (cleanedL (trimL l)).isEmpty = false ∧ 0 < deltaL l))

theorem removeLoop_keeps_comment {ps : List Pat} : ∀ {ls : List (List Char)},
    (∀ l ∈ ls, ¬ startsMulti ps l) → ∀ {x : List Char}, x ∈ ls →
    isCommentLine x = true → x ∈ removeLoop ps ls := by
  intro ls
  induction ls with
  | nil => intro _ x hx _; cases hx
  | cons l rest ih =>
    intro hns x hx hcx
    have hnsr : ∀ a ∈ rest, ¬ startsMulti ps a := fun a ha => hns a (by simp [ha])
    rw [removeLoop_cons]
    by_cases hc : isCommentLine l = true
    · rw [if_pos hc]
      rcases List.mem_cons.1 hx with h | h
      · simp [h]
      · exact List.mem_cons_of_mem _ (ih hnsr h hcx)
    · have hxr : x ∈ rest := by
        rcases List.mem_cons.1 hx with h | h
        · subst h; exact absurd hcx hc
        · exact h
      rw [if_neg hc]
      by_cases ht : anyTest ps (trimL l) = true
      · rw [if_pos ht]
        by_cases he : (cleanedL (trimL l)).isEmpty = true
        · rw [if_pos he]
          exact ih hnsr hxr hcx
        · by_cases hd : 0 < deltaL l
          · exfalso
            apply hns l (by simp)
            rw [Bool.not_eq_true] at hc he
            exact ⟨hc, ht, he, hd⟩
          · rw [if_neg he, if_neg hd]
            exact ih hnsr hxr hcx
      · rw [if_neg ht]
        rcases List.mem_cons.1 hx with h | h
        · simp [h]
        · exact List.mem_cons_of_mem _ (ih hnsr h hcx)

/-- Generalization of the comment-survival lemma to any keepable line:
when no line of the input opens a multi-line consumption, every line that
is a comment or matched by no active pattern passes through the removal
loop, regardless of what happens to the other lines. -/
theorem removeLoop_keeps_keepable {ps : List Pat} : ∀ {ls : List (List Char)},
    (∀ l ∈ ls, ¬ startsMulti ps l) → ∀ {x : List Char}, x ∈ ls →
    keepable ps x → x ∈ removeLoop ps ls := by
  intro ls
  induction ls with
  | nil => intro _ x hx _; cases hx
  | cons l rest ih =>
    intro hns x hx hkx
    have hnsr : ∀ a ∈ rest, ¬ startsMulti ps a := fun a ha => hns a (by simp [ha])
    rw [removeLoop_cons]
    by_cases hc : isCommentLine l = true
    · rw [if_pos hc]
      rcases List.mem_cons.1 hx with h | h
      · simp [h]
      · exact List.mem_cons_of_mem _ (ih hnsr h hkx)
    · rw [if_neg hc]
      by_cases ht : anyTest ps (trimL l) = true
      · have hxr : x ∈ rest := by
          rcases List.mem_cons.1 hx with h | h
          · subst h
            rcases hkx with hkc | hkt
            · exact absurd hkc hc
            · rw [hkt] at ht
              exact Bool.noConfusion ht
          · exact h
        rw [if_pos ht]
        by_cases he : (cleanedL (trimL l)).isEmpty = true
        · rw [if_pos he]
          exact ih hnsr hxr hkx
        · by_cases hd : 0 < deltaL l
          · exfalso
            apply hns l (by simp)
            rw [Bool.not_eq_true] at hc he
            exact ⟨hc, ht, he, hd⟩
          · rw [if_neg he, if_neg hd]
            exact ih hnsr hxr hkx
      · rw [if_neg ht]
        rcases List.mem_cons.1 hx with h | h
        · simp [h]
        · exact List.mem_cons_of_mem _ (ih hnsr h hkx)

theorem consoleP_mem_buildPatterns {keep ms : List (List Char)}
    (h : Pat.consoleP ms ∈ buildPatternsL keep) :
    ms = CONSOLE_METHODS.filter (fun m => !(keep.contains m)) := by
  unfold buildPatternsL at h
  rcases List.mem_append.1 h with h | h
  · split at h
    · cases h
    · simp only [List.mem_singleton, Pat.consoleP.injEq] at h
      exact h
  · simp at h

theorem ne_console_append {s rest : List Char} {c0 : Char} (hc : c0 ≠ 'c') :
    c0 :: rest ≠ strL "console." ++ s := by
  intro h
  rw [show strL "console." ++ s = 'c' :: (strL "onsole." ++ s) from rfl] at h
  injection h with h1 _
  exact hc h1

theorem testPat_nil (p : Pat) : testPat p [] = false := rfl

theorem anyTest_nil (ps : List Pat) : anyTest ps [] = false := by
  rw [anyTest]
  apply List.any_eq_false.2
  intro p _
  simp [testPat_nil]

/-! ## Claim theorems -/

/-- Claim C9: on the input `console.log("hi");\nconst x = 1;` with patterns
built from an empty KeepSet, `findMatches` returns exactly one match at
line 1, column 1, of kind `console.log`, and `removeStatements` returns
exactly `const x = 1;`. -/
theorem claim_c9 :
    findMatchesL (strL "console.log(\"hi\");\nconst x = 1;") (buildPatternsL []) =
      [{ file := [], line := 1, column := 1, type := strL "console.log",
         content := strL "console.log(\"hi\");" }] ∧
    removeStatementsL (strL "console.log(\"hi\");\nconst x = 1;") (buildPatternsL []) =
      strL "const x = 1;" := by
  constructor <;> decide

/-- Claim C10: the output of `removeStatements` never has two consecutive
blank (whitespace-only) lines, and blank-run collapsing applies even to
runs that pre-existed in the input, so the rewrite can change an input in
which `findMatches` finds no match at all. -/
theorem claim_c10 (content : List Char) (keep : List (List Char)) :
    List.Chain' noTwoBlank
      (splitLines (removeStatementsL content (buildPatternsL keep))) ∧
    (findMatchesL (strL "a\n\n\nb") (buildPatternsL []) = [] ∧
      removeStatementsL (strL "a\n\n\nb") (buildPatternsL []) = strL "a\n\nb" ∧
      strL "a\n\nb" ≠ strL "a\n\n\nb") := by
  refine ⟨?_, by decide, by decide, by decide⟩
  have hfnl : ∀ x ∈ collapseBlanks (removeLoop (buildPatternsL keep) (splitLines content)),
      '\n' ∉ x := fun x hx =>
    mem_splitLines_no_newline x
      ((removeLoop_sublist (buildPatternsL keep) (splitLines content)).subset
        (mem_collapseBlanks hx))
  have hchain := collapseBlanks_chain (removeLoop (buildPatternsL keep) (splitLines content))
  rw [removeStatementsL]
  cases hf : collapseBlanks (removeLoop (buildPatternsL keep) (splitLines content)) with
  | nil => simp [joinLines, splitLines]
  | cons f0 frest =>
    rw [hf] at hfnl hchain
    rw [splitLines_joinLines (by simp) hfnl]
    exact hchain

/-- Claim C8: the Remover is total — for every input and pattern set the
result is the join of a sublist of the input's lines (no error path) —
and an unmatched opening parenthesis merely consumes to end of input, as
on `console.log(\nfoo\nbar` where everything is consumed. -/
theorem claim_c8 (content : List Char) (keep : List (List Char)) :
    (∃ ls, ls.Sublist (splitLines content) ∧
      removeStatementsL content (buildPatternsL keep) = joinLines ls) ∧
    removeStatementsL (strL "console.log(\nfoo\nbar") (buildPatternsL []) = strL "" := by
  refine ⟨⟨collapseBlanks (removeLoop (buildPatternsL keep) (splitLines content)),
    ?_, rfl⟩, by decide⟩
  exact (collapseBlanks_sublist _).trans (removeLoop_sublist _ _)

/-- Claim C6 counterexample: on `alert(1); console.log(2)` the match list
is ordered by pattern (console first), so the same-line columns are 11
then 1 — not left-to-right as the claim states. -/
theorem claim_c6_cex :
    ¬ List.Pairwise
      (fun a b => a.line < b.line ∨ (a.line = b.line ∧ a.column ≤ b.column))
      (findMatchesL (strL "alert(1); console.log(2)") (buildPatternsL [])) := by
  decide

/-- Claim C6 (amended): `findMatches` output is non-decreasing in line
number; within one line each single pattern's occurrences are reported
left-to-right (non-decreasing start positions), but matches of different
patterns on the same line are grouped by pattern, not sorted by column. -/
theorem claim_c6_amended (content : List Char) (ps : List Pat) :
    List.Pairwise (fun a b => a.line ≤ b.line) (findMatchesL content ps) ∧
    ∀ (p : Pat) (line : List Char),
      List.Pairwise (fun a b => a.1 ≤ b.1) (scanLine p line) := by
  constructor
  · exact scanAll_pairwise
  · intro p line
    exact scanGo_pairwise

/-- Claim C2 counterexample: the comment line `// )` is consumed by the
multi-line parenthesis scan started on the previous line and vanishes
from the output, so a comment-classified line can be deleted. -/
theorem claim_c2_cex :
    isCommentLine (strL "// )") = true ∧
    removeStatementsL (strL "console.log(\n// )") (buildPatternsL []) = strL "" := by
  constructor <;> decide

/-- Claim C2 (amended): a comment-classified line never contributes a
match in `findMatches`; and `removeStatements` keeps every comment line
provided no line of the input opens a multi-line consumption (the per-line
decision itself never deletes a comment line — only the parenthesis scan
of an earlier non-comment line can). -/
theorem claim_c2_amended (ps : List Pat) :
    (∀ (idx : Nat) (line : List Char), isCommentLine line = true →
      lineMatches ps idx line = []) ∧
    (∀ ls : List (List Char), (∀ l ∈ ls, ¬ startsMulti ps l) →
      ∀ x ∈ ls, isCommentLine x = true →
        x ∈ collapseBlanks (removeLoop ps ls)) := by
  constructor
  · intro idx line h
    exact lineMatches_comment h
  · intro ls hns x hx hcx
    exact mem_collapseBlanks_of_nonblank (comment_nonblank hcx)
      (removeLoop_keeps_comment hns hx hcx)

/-- Claim C2 witness: a standalone comment line contributes no match and
survives removal. -/
theorem claim_c2_witness :
    lineMatches (buildPatternsL []) 0 (strL "// console.log(1)") = [] ∧
    strL "// x" ∈ collapseBlanks (removeLoop (buildPatternsL []) [strL "// x"]) := by
  constructor
  · exact (claim_c2_amended (buildPatternsL [])).1 0 (strL "// console.log(1)") (by decide)
  · exact (claim_c2_amended (buildPatternsL [])).2 [strL "// x"] (by decide)
      (strL "// x") (by decide) (by decide)

/-- Claim C4 counterexample: on `\nconsole.log(\n)\n` the call occupies
lines 2-3, yet the output is empty — the blank-line collapse also removed
a blank line outside the call, so removal does not delete those lines
alone. -/
theorem claim_c4_cex :
    removeStatementsL (strL "\nconsole.log(\n)\n") (buildPatternsL []) = strL "" ∧
    strL "\n" ≠ strL "" := by
  constructor <;> decide

/-- Claim C4 (amended): if a non-comment line `l0` matches a pattern, its
`cleaned` form is nonempty, and its parenthesis balance is positive, while
the continuation lines `mid` keep the running balance positive until it
reaches exactly zero at the end of `mid`, then removal deletes exactly
`l0`, `mid`, and a following lone-semicolon line (`dropSemi`), and nothing
else — provided the surviving lines do not trigger the blank-line
collapse (no two adjacent blanks among them). -/
theorem claim_c4_amended (keep : List (List Char)) (pre mid post : List (List Char))
    (l0 : List Char)
    (hpre : ∀ x ∈ pre, keepable (buildPatternsL keep) x)
    (hpost : ∀ x ∈ post, keepable (buildPatternsL keep) x)
    (hnl : ∀ x ∈ pre ++ (l0 :: (mid ++ post)), '\n' ∉ x)
    (hl0c : isCommentLine l0 = false)
    (hl0t : anyTest (buildPatternsL keep) (trimL l0) = true)
    (hl0cl : (cleanedL (trimL l0)).isEmpty = false)
    (hmidne : mid ≠ [])
    (hpos : ∀ j, j < mid.length → 0 < deltaL l0 + sumDelta (mid.take j))
    (hbal : deltaL l0 + sumDelta mid = 0)
    (hchain : List.Chain' noTwoBlank (pre ++ dropSemi post)) :
    removeStatementsL (joinLines (pre ++ (l0 :: (mid ++ post)))) (buildPatternsL keep) =
      joinLines (pre ++ dropSemi post) := by
  have hd : 0 < deltaL l0 := by
    have h0 := hpos 0 (by cases mid with | nil => exact absurd rfl hmidne | cons a as => simp)
    simpa [sumDelta] using h0
  have hsplit : splitLines (joinLines (pre ++ (l0 :: (mid ++ post)))) =
      pre ++ (l0 :: (mid ++ post)) :=
    splitLines_joinLines (by simp) hnl
  rw [removeStatementsL, hsplit, removeLoop_append_keep hpre]
  have hstep : removeLoop (buildPatternsL keep) (l0 :: (mid ++ post)) = dropSemi post := by
    rw [removeLoop_cons, if_neg (by rw [hl0c]; exact Bool.noConfusion),
      if_pos hl0t, if_neg (by rw [hl0cl]; exact Bool.noConfusion), if_pos hd,
      consumeDepth_exact post hpos hbal]
    apply removeLoop_id
    intro x hx
    exact hpost x ((dropSemi_sublist post).subset hx)
  rw [hstep, collapseBlanks_id hchain]

/-- Claim C4 witness: `a` / `console.log(` / `)` / `keep();` — the call's
two lines are deleted, `a` and `keep();` survive. -/
theorem claim_c4_witness :
    removeStatementsL
      (joinLines ([strL "a"] ++ (strL "console.log(" :: ([strL ")"] ++ [strL "keep();"]))))
      (buildPatternsL []) = joinLines ([strL "a"] ++ dropSemi [strL "keep();"]) :=
  claim_c4_amended [] [strL "a"] [strL ")"] [strL "keep();"] (strL "console.log(")
    (by decide) (by decide) (by decide) (by decide) (by decide) (by decide)
    (by decide) (by decide) (by decide)
    (List.chain'_cons.2 ⟨by decide, List.chain'_singleton _⟩)

/-- Claim C5 counterexample: `console .log(1)` (whitespace before the dot)
is matched by the console regex, but the matched text lacks the literal
substring `console.`, so the reported kind is `unknown` — a value outside
the enumerated vocabulary. -/
theorem claim_c5_cex :
    (findMatchesL (strL "console .log(1)") (buildPatternsL [])).map MatchR.type =
      [strL "unknown"] ∧
    (∀ m ∈ CONSOLE_METHODS, strL "unknown" ≠ strL "console." ++ m) ∧
    strL "unknown" ≠ strL "debugger" ∧ strL "unknown" ≠ strL "alert" := by
  refine ⟨by decide, by decide, by decide, by decide⟩

/-- Claim C5 (amended): every match kind is `console.<m>` for an active
(non-kept) vocabulary method `m`, or `debugger`, or `alert`, or the
defensive `unknown` (reached when the matched text has whitespace around
the console dot, so the `console.` substring check fails). -/
theorem claim_c5_amended (content : List Char) (keep : List (List Char)) :
    ∀ mt ∈ findMatchesL content (buildPatternsL keep),
      (∃ mm ∈ CONSOLE_METHODS.filter (fun m => !(keep.contains m)),
        mt.type = strL "console." ++ mm) ∨
      mt.type = strL "debugger" ∨ mt.type = strL "alert" ∨
      mt.type = strL "unknown" := by
  intro mt hmt
  obtain ⟨j, line, hline⟩ := mem_scanAll hmt
  obtain ⟨p, hp, u, m, hcore, htype, -, -⟩ := mem_lineMatches hline
  have hwf := buildPatterns_PatWF keep p hp
  rw [htype]
  rcases computeType_classify hwf hcore with ⟨ms, hpe, mm, hmm, he⟩ | hres
  · left
    subst hpe
    rw [consoleP_mem_buildPatterns hp] at hmm
    exact ⟨mm, hmm, he⟩
  · right
    exact hres

/-- Claim C5 witness: the amended classification at a concrete match. -/
theorem claim_c5_witness :
    (∃ mm ∈ CONSOLE_METHODS.filter
        (fun m => !(([] : List (List Char)).contains m)),
      ({ file := [], line := 1, column := 1, type := strL "console.log",
         content := strL "console.log(1);" } : MatchR).type = strL "console." ++ mm) ∨
    ({ file := [], line := 1, column := 1, type := strL "console.log",
       content := strL "console.log(1);" } : MatchR).type = strL "debugger" ∨
    ({ file := [], line := 1, column := 1, type := strL "console.log",
       content := strL "console.log(1);" } : MatchR).type = strL "alert" ∨
    ({ file := [], line := 1, column := 1, type := strL "console.log",
       content := strL "console.log(1);" } : MatchR).type = strL "unknown" :=
  claim_c5_amended (strL "console.log(1);") []
    { file := [], line := 1, column := 1, type := strL "console.log",
      content := strL "console.log(1);" } (by decide)

/-- Claim C3 counterexample: with KeepSet `{error}`, the kept call
`console.error(2)` shares a line with `console.log(1)`; the whole line is
removed, deleting the kept call. -/
theorem claim_c3_cex :
    containsSub (strL "console.error") (strL "console.log(1); console.error(2);") = true ∧
    removeStatementsL (strL "console.log(1); console.error(2);")
      (buildPatternsL [strL "error"]) = strL "" := by
  constructor <;> decide

/-- Claim C3 (amended): a kept method `M` never yields a Match of kind
`console.M`; and every non-blank line on which no active pattern matches
(comment lines included) appears verbatim among the output lines of
`removeStatements` — in an input whose other lines may carry active
matches and be removed — provided no input line opens a multi-line
consumption (and non-blankness excludes only the blank-line collapse).
A kept call can still be deleted when its line also carries an active
match or lies in a multi-line consumption span. -/
theorem claim_c3_amended (keep : List (List Char)) (M : List Char) (hM : M ∈ keep) :
    (∀ (content : List Char), ∀ mt ∈ findMatchesL content (buildPatternsL keep),
      mt.type ≠ strL "console." ++ M) ∧
    (∀ ls : List (List Char), (∀ l ∈ ls, ¬ startsMulti (buildPatternsL keep) l) →
      ∀ x ∈ ls, keepable (buildPatternsL keep) x → (trimL x).isEmpty = false →
        x ∈ collapseBlanks (removeLoop (buildPatternsL keep) ls)) := by
  constructor
  · intro content mt hmt
    obtain ⟨j, line, hline⟩ := mem_scanAll hmt
    obtain ⟨p, hp, u, m, hcore, htype, -, -⟩ := mem_lineMatches hline
    have hwf := buildPatterns_PatWF keep p hp
    rw [htype]
    rcases computeType_classify hwf hcore with ⟨ms, hpe, mm, hmm, he⟩ | hres
    · subst hpe
      rw [consoleP_mem_buildPatterns hp] at hmm
      rw [he]
      intro hEq
      have hmmM : mm = M := List.append_cancel_left hEq
      subst hmmM
      have := (List.mem_filter.1 hmm).2
      rw [Bool.not_eq_eq_eq_not, Bool.not_true] at this
      rw [← contains_iff_memL] at hM
      rw [hM] at this
      exact Bool.noConfusion this
    · rcases hres with h | h | h <;> rw [h]
      · exact ne_console_append (by decide)
      · exact ne_console_append (by decide)
      · exact ne_console_append (by decide)
  · intro ls hns x hx hkx hnb
    exact mem_collapseBlanks_of_nonblank hnb (removeLoop_keeps_keepable hns hx hkx)

/-- Claim C3 witness: with KeepSet `{error}`, on the two-line input whose
first line is an active `console.log` match, the reported match is not of
the kept kind, and the kept-call line `console.error(2);` survives into
the collapsed removal output even though line 1 is removed. -/
theorem claim_c3_witness :
    (({ file := [], line := 1, column := 1, type := strL "console.log",
        content := strL "console.log(1);" } : MatchR).type ≠
      strL "console." ++ strL "error") ∧
    strL "console.error(2);" ∈ collapseBlanks (removeLoop (buildPatternsL [strL "error"])
      [strL "console.log(1);", strL "console.error(2);"]) := by
  constructor
  · exact (claim_c3_amended [strL "error"] (strL "error") (by decide)).1
      (strL "console.log(1);")
      { file := [], line := 1, column := 1, type := strL "console.log",
        content := strL "console.log(1);" } (by decide)
  · exact (claim_c3_amended [strL "error"] (strL "error") (by decide)).2
      [strL "console.log(1);", strL "console.error(2);"] (by decide)
      (strL "console.error(2);") (by decide) (by decide) (by decide)

/-- Claim C7: with a KeepSet covering the whole console vocabulary the
console matcher is omitted — the pattern set is just the `debugger` and
`alert` matchers, which can only produce those two kinds — yet bare
`debugger` statements and `alert(` calls still match; and the empty
KeepSet yields the maximal matcher set. -/
theorem claim_c7 (keep : List (List Char)) (h : ∀ m ∈ CONSOLE_METHODS, m ∈ keep) :
    buildPatternsL keep = [Pat.debuggerP, Pat.alertP] ∧
    (∀ (content : List Char), ∀ mt ∈ findMatchesL content (buildPatternsL keep),
      mt.type = strL "debugger" ∨ mt.type = strL "alert") ∧
    findMatchesL (strL "debugger;") (buildPatternsL keep) =
      [{ file := [], line := 1, column := 1, type := strL "debugger",
         content := strL "debugger;" }] ∧
    findMatchesL (strL "alert(1)") (buildPatternsL keep) =
      [{ file := [], line := 1, column := 1, type := strL "alert",
         content := strL "alert(1)" }] ∧
    buildPatternsL [] = [Pat.consoleP CONSOLE_METHODS, Pat.debuggerP, Pat.alertP] := by
  have hempty : CONSOLE_METHODS.filter (fun m => !(keep.contains m)) = [] := by
    apply List.filter_eq_nil_iff.2
    intro m hm
    rw [Bool.not_eq_true, Bool.not_eq_eq_eq_not, Bool.not_false]
    exact contains_iff_memL.2 (h m hm)
  have hps : buildPatternsL keep = [Pat.debuggerP, Pat.alertP] := by
    unfold buildPatternsL
    rw [hempty]
    rfl
  refine ⟨hps, ?_, ?_, ?_, by decide⟩
  · intro content mt hmt
    obtain ⟨j, line, hline⟩ := mem_scanAll hmt
    obtain ⟨p, hp, u, m, hcore, htype, -, -⟩ := mem_lineMatches hline
    rw [hps] at hp
    rcases List.mem_cons.1 hp with hpe | hp2
    · subst hpe
      exact Or.inl (htype.trans (computeType_debugger hcore))
    · rcases List.mem_cons.1 hp2 with hpe | hp3
      · subst hpe
        exact Or.inr (htype.trans (computeType_alert hcore))
      · cases hp3
  · rw [hps]; decide
  · rw [hps]; decide

/-- Claim C7 witness: the full-vocabulary KeepSet instance. -/
theorem claim_c7_witness :
    buildPatternsL CONSOLE_METHODS = [Pat.debuggerP, Pat.alertP] ∧
    findMatchesL (strL "debugger;") (buildPatternsL CONSOLE_METHODS) =
      [{ file := [], line := 1, column := 1, type := strL "debugger",
         content := strL "debugger;" }] := by
  have h := claim_c7 CONSOLE_METHODS (fun m hm => hm)
  exact ⟨h.1, h.2.2.1⟩

/-- Claim C1: `removeStatements` is idempotent, and `findMatches` on its
output yields no matches: every surviving line is a comment line (which
neither function touches) or a line no pattern matches — matching on the
trimmed line transfers to the raw line — and the blank-collapse pass is
stable on its own output. -/
theorem claim_c1 (content : List Char) (keep : List (List Char)) :
    removeStatementsL (removeStatementsL content (buildPatternsL keep))
        (buildPatternsL keep) =
      removeStatementsL content (buildPatternsL keep) ∧
    findMatchesL (removeStatementsL content (buildPatternsL keep))
      (buildPatternsL keep) = [] := by
  have hwfP := buildPatterns_PatWF keep
  have hfmem : ∀ x ∈ collapseBlanks (removeLoop (buildPatternsL keep)
      (splitLines content)), keepable (buildPatternsL keep) x :=
    fun x hx => removeLoop_inv (mem_collapseBlanks hx)
  have hfnl : ∀ x ∈ collapseBlanks (removeLoop (buildPatternsL keep)
      (splitLines content)), '\n' ∉ x := fun x hx =>
    mem_splitLines_no_newline x
      ((removeLoop_sublist (buildPatternsL keep) (splitLines content)).subset
        (mem_collapseBlanks hx))
  have hchain := collapseBlanks_chain
    (removeLoop (buildPatternsL keep) (splitLines content))
  have hout : removeStatementsL content (buildPatternsL keep) =
      joinLines (collapseBlanks (removeLoop (buildPatternsL keep)
        (splitLines content))) := rfl
  cases hf : collapseBlanks (removeLoop (buildPatternsL keep) (splitLines content)) with
  | nil =>
    rw [hout, hf]
    constructor
    · show removeStatementsL [] (buildPatternsL keep) = joinLines []
      rw [removeStatementsL]
      have h2 : removeLoop (buildPatternsL keep) [[]] = [[]] := by
        apply removeLoop_id
        intro x hx
        simp only [List.mem_singleton] at hx
        subst hx
        exact Or.inr (anyTest_nil _)
      rw [show splitLines ([] : List Char) = [[]] from rfl, h2]
      rfl
    · show findMatchesL [] (buildPatternsL keep) = []
      rw [findMatchesL, show splitLines ([] : List Char) = [[]] from rfl]
      apply scanAll_nil
      intro l hl j
      simp only [List.mem_singleton] at hl
      subst hl
      apply lineMatches_no_test
      intro p hp
      exact testPat_nil p
  | cons f0 frest =>
    rw [hf] at hfmem hfnl hchain
    have hsplit : splitLines (removeStatementsL content (buildPatternsL keep)) =
        f0 :: frest := by
      rw [hout, hf]
      exact splitLines_joinLines (by simp) hfnl
    constructor
    · show joinLines (collapseBlanks (removeLoop (buildPatternsL keep)
        (splitLines (removeStatementsL content (buildPatternsL keep))))) = _
      rw [hsplit, removeLoop_id hfmem, collapseBlanks_id hchain, hout, hf]
    · rw [findMatchesL, hsplit]
      apply scanAll_nil
      intro l hl j
      rcases hfmem l hl with hc | ht
      · exact lineMatches_comment hc
      · apply lineMatches_no_test
        intro p hp
        have htp : testPat p (trimL l) = false := by
          rw [anyTest] at ht
          have := List.any_eq_false.1 ht p hp
          rwa [Bool.not_eq_true] at this
        cases hpl : testPat p l with
        | false => rfl
        | true =>
          exfalso
          have htr : hasMatchB p none (trimL l) = true :=
            hasMatchB_trim (hwfP p hp) hpl
          rw [show hasMatchB p none (trimL l) = testPat p (trimL l) from rfl, htp] at htr
          exact Bool.noConfusion htr

end LogStrip
